import Mathlib

/-!
# Verification of the qubovert core (PUBO degree reduction and format converters)

Shallow embedding of `qubovert/_pubo.py` and `qubovert/utils/_conversions.py`.

Python dictionaries mapping monomial keys (tuples of variable indices) to
rational coefficients are modelled as association lists `List (Key × ℚ)`.
The matrix containers (`PUBOMatrix`, `QUBOMatrix`, `HIsingMatrix`,
`IsingMatrix`) are not part of the given sources; their accumulation
behaviour (canonicalize the key, add the value, drop zero entries) is
modelled from the spec.
-/

namespace Qubovert

/-- A monomial key: a tuple of variable indices. -/
abbrev Key := List ℕ

/-- A polynomial container: association list from keys to coefficients.
Models a Python dict; the operations below keep keys canonical, unique and
values nonzero, mirroring the containers described in the spec. -/
abbrev Poly := List (Key × ℚ)

/-- Sort a key ascending.  Models Python `tuple(sorted(k))` for integer keys. -/
def sortKey (k : Key) : Key := k.insertionSort (· ≤ ·)

/-- Modelled from the spec: the BINARY canonicalization (`squash_key` of
`PUBOMatrix`/`QUBOMatrix`, which are not in the given sources): the sorted
sequence of distinct labels of the raw monomial (idempotent algebra, v·v=v). -/
def squashBin (k : Key) : Key := sortKey k.dedup

/-- Modelled from the spec: the SPIN canonicalization (`squash_key` of
`HIsingMatrix`/`IsingMatrix`, which are not in the given sources): the sorted
sequence of labels occurring an odd number of times (involutive algebra,
v·v=1). -/
def squashSpin (k : Key) : Key :=
  sortKey (k.dedup.filter (fun x => k.count x % 2 = 1))

/-- The coefficient stored for key `k` (0 when absent).  Summing over all
matching entries agrees with dict lookup on the no-duplicate-key
representations produced by the operations below. -/
def coeff (P : Poly) (k : Key) : ℚ :=
  (P.map (fun kv => if kv.1 = k then kv.2 else 0)).sum

/-- Remove every entry with key `k`.  Models `del P[k]`. -/
def removeKey (P : Poly) (k : Key) : Poly :=
  P.filter (fun kv => decide (kv.1 ≠ k))

/-- Modelled from the spec: store coefficient `c` at (already canonical) key
`k`, eliminating the entry when the coefficient is zero. -/
def setCoeff (P : Poly) (k : Key) (c : ℚ) : Poly :=
  if c = 0 then removeKey P k else (k, c) :: removeKey P k

/-- Modelled from the spec: `P[k] += v` on a container with canonicalization
`sq`: canonicalize the key, add `v` to the stored coefficient, drop the entry
if the result is zero. -/
def addTermWith (sq : Key → Key) (P : Poly) (k : Key) (v : ℚ) : Poly :=
  setCoeff P (sq k) (coeff P (sq k) + v)

/-- Accumulation into a BINARY container (`PUBOMatrix` / `QUBOMatrix`). -/
def addTermBin (P : Poly) (k : Key) (v : ℚ) : Poly := addTermWith squashBin P k v

/-- Accumulation into a SPIN container (`HIsingMatrix` / `IsingMatrix`). -/
def addTermSpin (P : Poly) (k : Key) (v : ℚ) : Poly := addTermWith squashSpin P k v

/-- The value of one monomial at assignment `a`: the product of the variable
values over the key. -/
def keyVal (a : ℕ → ℚ) (k : Key) : ℚ := (k.map a).prod

/-- The value of a polynomial at assignment `a`. -/
def eval (P : Poly) (a : ℕ → ℚ) : ℚ :=
  (P.map (fun kv => kv.2 * keyVal a kv.1)).sum

/-- An assignment is boolean when every variable takes value 0 or 1. -/
def BoolAssign (a : ℕ → ℚ) : Prop := ∀ i, a i = 0 ∨ a i = 1

/-! ## Basic lemmas about the container operations -/

theorem coeff_nil (k : Key) : coeff [] k = 0 := rfl

theorem coeff_cons (e : Key × ℚ) (P : Poly) (k : Key) :
    coeff (e :: P) k = (if e.1 = k then e.2 else 0) + coeff P k := by
  simp [coeff]

theorem removeKey_nil (k : Key) : removeKey [] k = [] := rfl

theorem removeKey_cons (e : Key × ℚ) (P : Poly) (k : Key) :
    removeKey (e :: P) k
      = if e.1 = k then removeKey P k else e :: removeKey P k := by
  by_cases he : e.1 = k <;> simp [removeKey, List.filter_cons, he]

theorem coeff_removeKey (P : Poly) (k key : Key) :
    coeff (removeKey P k) key = if key = k then 0 else coeff P key := by
  induction P with
  | nil => simp [removeKey_nil, coeff_nil]
  | cons e t ih =>
      rw [removeKey_cons, coeff_cons]
      by_cases he : e.1 = k
      · rw [if_pos he, ih]
        by_cases hk : key = k
        · simp [hk]
        · have : ¬ e.1 = key := by rw [he]; exact fun h => hk h.symm
          simp [hk, this]
      · rw [if_neg he, coeff_cons, ih]
        by_cases hk : key = k
        · simp [hk, he]
        · simp [hk]

theorem coeff_setCoeff (P : Poly) (k : Key) (c : ℚ) (key : Key) :
    coeff (setCoeff P k c) key = if key = k then c else coeff P key := by
  by_cases hc : c = 0
  · rw [setCoeff, if_pos hc, coeff_removeKey]
    by_cases hk : key = k <;> simp [hk, hc]
  · rw [setCoeff, if_neg hc, coeff_cons, coeff_removeKey]
    by_cases hk : key = k
    · simp [hk]
    · have : ¬ k = key := fun h => hk h.symm
      simp [hk, this]

theorem coeff_addTermWith (sq : Key → Key) (P : Poly) (k : Key) (v : ℚ)
    (key : Key) :
    coeff (addTermWith sq P k v) key
      = coeff P key + (if sq k = key then v else 0) := by
  by_cases hk : key = sq k
  · simp [addTermWith, coeff_setCoeff, hk]
  · have : ¬ sq k = key := fun h => hk h.symm
    simp [addTermWith, coeff_setCoeff, hk, this]

theorem eval_nil (a : ℕ → ℚ) : eval [] a = 0 := rfl

theorem eval_cons (e : Key × ℚ) (P : Poly) (a : ℕ → ℚ) :
    eval (e :: P) a = e.2 * keyVal a e.1 + eval P a := by
  simp [eval]

theorem eval_removeKey (P : Poly) (k : Key) (a : ℕ → ℚ) :
    eval (removeKey P k) a = eval P a - coeff P k * keyVal a k := by
  induction P with
  | nil => simp [removeKey_nil, eval_nil, coeff_nil]
  | cons e t ih =>
      rw [removeKey_cons, eval_cons, coeff_cons]
      by_cases he : e.1 = k
      · rw [if_pos he, ih, if_pos he, he]; ring
      · rw [if_neg he, eval_cons, ih, if_neg he]; ring

theorem eval_setCoeff (P : Poly) (k : Key) (c : ℚ) (a : ℕ → ℚ) :
    eval (setCoeff P k c) a = eval P a + (c - coeff P k) * keyVal a k := by
  by_cases hc : c = 0
  · simp [setCoeff, hc, eval_removeKey]; ring
  · simp [setCoeff, hc, eval_cons, eval_removeKey]; ring

theorem eval_addTermWith (sq : Key → Key) (P : Poly) (k : Key) (v : ℚ)
    (a : ℕ → ℚ) :
    eval (addTermWith sq P k v) a = eval P a + v * keyVal a (sq k) := by
  simp [addTermWith, eval_setCoeff]

/-- A fold over terms with a per-step additive effect on a measure `μ`
(coefficient at a fixed key, value at a fixed assignment, ...) shifts the
measure by the sum of the per-term effects. -/
theorem foldl_additive_mem {α : Type} {μ : Poly → ℚ} {step : Poly → α → Poly}
    {g : α → ℚ} :
    ∀ (items : List α), (∀ L x, x ∈ items → μ (step L x) = μ L + g x) →
      ∀ (L : Poly), μ (items.foldl step L) = μ L + (items.map g).sum
  | [], _, L => by simp
  | x :: t, h, L => by
      rw [List.foldl_cons,
        foldl_additive_mem t (fun L y hy => h L y (List.mem_cons_of_mem x hy))
          (step L x),
        h L x (List.mem_cons_self x t), List.map_cons, List.sum_cons]
      ring

/-- Unconditional version of `foldl_additive_mem`. -/
theorem foldl_additive {α : Type} {μ : Poly → ℚ} {step : Poly → α → Poly}
    {g : α → ℚ} (h : ∀ L x, μ (step L x) = μ L + g x)
    (items : List α) (L : Poly) :
    μ (items.foldl step L) = μ L + (items.map g).sum :=
  foldl_additive_mem items (fun L x _ => h L x) L

/-! ## Permutation and membership lemmas for canonicalization -/

theorem sortKey_perm (k : Key) : List.Perm (sortKey k) k := List.perm_insertionSort _ k

theorem mem_sortKey {x : ℕ} {k : Key} : x ∈ sortKey k ↔ x ∈ k :=
  (sortKey_perm k).mem_iff

theorem sortKey_sorted (k : Key) : List.Sorted (· ≤ ·) (sortKey k) :=
  List.sorted_insertionSort _ k

theorem sortKey_eq_self {k : Key} (h : List.Sorted (· ≤ ·) k) : sortKey k = k :=
  List.Sorted.insertionSort_eq h

theorem sortKey_nodup {k : Key} (h : k.Nodup) : (sortKey k).Nodup :=
  (sortKey_perm k).nodup_iff.2 h

theorem squashBin_nodup (k : Key) : (squashBin k).Nodup :=
  sortKey_nodup k.nodup_dedup

theorem mem_squashBin {x : ℕ} {k : Key} : x ∈ squashBin k ↔ x ∈ k := by
  simp [squashBin, mem_sortKey]

theorem squashBin_sorted (k : Key) : List.Sorted (· ≤ ·) (squashBin k) :=
  sortKey_sorted _

/-- A key is strictly sorted when its entries strictly increase. -/
def StrictKey (k : Key) : Prop := List.Pairwise (· < ·) k

theorem strictKey_of_sorted_nodup {k : Key} (hs : List.Sorted (· ≤ ·) k)
    (hn : k.Nodup) : StrictKey k := by
  have := List.Pairwise.and hs hn
  exact this.imp (fun h => lt_of_le_of_ne h.1 h.2)

theorem squashBin_strict (k : Key) : StrictKey (squashBin k) :=
  strictKey_of_sorted_nodup (squashBin_sorted k) (squashBin_nodup k)

theorem strictKey_sorted {k : Key} (h : StrictKey k) : List.Sorted (· ≤ ·) k :=
  h.imp le_of_lt

theorem strictKey_nodup {k : Key} (h : StrictKey k) : k.Nodup :=
  h.imp ne_of_lt

theorem squashBin_eq_self {k : Key} (h : StrictKey k) : squashBin k = k := by
  rw [squashBin, List.dedup_eq_self.2 (strictKey_nodup h),
    sortKey_eq_self (strictKey_sorted h)]

theorem squashSpin_eq_self {k : Key} (h : StrictKey k) : squashSpin k = k := by
  have hn := strictKey_nodup h
  rw [squashSpin, List.dedup_eq_self.2 hn]
  have : k.filter (fun x => k.count x % 2 = 1) = k := by
    apply List.filter_eq_self.2
    intro x hx
    have : k.count x = 1 := List.count_eq_one_of_mem hn hx
    simp [this]
  rw [this, sortKey_eq_self (strictKey_sorted h)]

theorem squashSpin_nodup (k : Key) : (squashSpin k).Nodup :=
  sortKey_nodup (List.Nodup.filter _ k.nodup_dedup)

theorem squashSpin_sorted (k : Key) : List.Sorted (· ≤ ·) (squashSpin k) :=
  sortKey_sorted _

theorem squashSpin_strict (k : Key) : StrictKey (squashSpin k) :=
  strictKey_of_sorted_nodup (squashSpin_sorted k) (squashSpin_nodup k)

theorem squashBin_idem (k : Key) : squashBin (squashBin k) = squashBin k :=
  squashBin_eq_self (squashBin_strict k)

theorem squashSpin_idem (k : Key) : squashSpin (squashSpin k) = squashSpin k :=
  squashSpin_eq_self (squashSpin_strict k)

theorem mem_squashSpin_of_nodup {x : ℕ} {k : Key} (hn : k.Nodup) :
    x ∈ squashSpin k ↔ x ∈ k := by
  rw [squashSpin, List.dedup_eq_self.2 hn, mem_sortKey, List.mem_filter]
  constructor
  · exact fun h => h.1
  · intro hx
    refine ⟨hx, ?_⟩
    have : k.count x = 1 := List.count_eq_one_of_mem hn hx
    simp [this]

/-! ## Products of boolean values -/

theorem keyVal_nil (a : ℕ → ℚ) : keyVal a [] = 1 := rfl

theorem keyVal_cons (a : ℕ → ℚ) (x : ℕ) (k : Key) :
    keyVal a (x :: k) = a x * keyVal a k := by simp [keyVal]

theorem keyVal_perm (a : ℕ → ℚ) {k k' : Key} (h : List.Perm k k') :
    keyVal a k = keyVal a k' :=
  (h.map a).prod_eq

theorem keyVal_zero_or_one {a : ℕ → ℚ} (ha : BoolAssign a) (k : Key) :
    keyVal a k = 0 ∨ keyVal a k = 1 := by
  induction k with
  | nil => right; rfl
  | cons x t ih =>
      rw [keyVal_cons]
      rcases ha x with h | h <;> rcases ih with h' | h' <;> simp [h, h']

theorem keyVal_eq_one_iff {a : ℕ → ℚ} (ha : BoolAssign a) (k : Key) :
    keyVal a k = 1 ↔ ∀ x ∈ k, a x = 1 := by
  induction k with
  | nil => simp [keyVal_nil]
  | cons x t ih =>
      rw [keyVal_cons]
      constructor
      · intro h
        rcases ha x with hx | hx
        · rw [hx, zero_mul] at h; exact absurd h (by norm_num)
        · rcases keyVal_zero_or_one ha t with ht | ht
          · rw [hx, ht] at h; norm_num at h
          · intro y hy
            rcases List.mem_cons.1 hy with rfl | hy
            · exact hx
            · exact (ih.1 ht) y hy
      · intro h
        rw [h x (by simp), one_mul]
        exact ih.2 (fun y hy => h y (List.mem_cons_of_mem x hy))

/-- Two keys with the same members have the same value under a boolean
assignment (multiplicities do not matter since 0 and 1 are idempotent). -/
theorem keyVal_eq_of_mem_iff {a : ℕ → ℚ} (ha : BoolAssign a) {k k' : Key}
    (h : ∀ x, x ∈ k ↔ x ∈ k') : keyVal a k = keyVal a k' := by
  rcases keyVal_zero_or_one ha k with h1 | h1 <;>
    rcases keyVal_zero_or_one ha k' with h2 | h2 <;> rw [h1, h2]
  · have := (keyVal_eq_one_iff ha k').1 h2
    have : keyVal a k = 1 :=
      (keyVal_eq_one_iff ha k).2 (fun x hx => this x ((h x).1 hx))
    rw [h1] at this; norm_num at this
  · have := (keyVal_eq_one_iff ha k).1 h1
    have : keyVal a k' = 1 :=
      (keyVal_eq_one_iff ha k').2 (fun x hx => this x ((h x).2 hx))
    rw [h2] at this; norm_num at this

theorem keyVal_squashBin {a : ℕ → ℚ} (ha : BoolAssign a) (k : Key) :
    keyVal a (squashBin k) = keyVal a k :=
  keyVal_eq_of_mem_iff ha (fun _ => mem_squashBin)


theorem strictKey_of_squashBin_eq {k : Key} (h : squashBin k = k) :
    StrictKey k := h ▸ squashBin_strict k

theorem squashSpin_nil : squashSpin [] = [] := rfl

theorem squashBin_nil : squashBin [] = [] := rfl

theorem squashSpin_singleton (i : ℕ) : squashSpin [i] = [i] :=
  squashSpin_eq_self (List.pairwise_singleton _ _)

theorem squashBin_singleton (i : ℕ) : squashBin [i] = [i] :=
  squashBin_eq_self (List.pairwise_singleton _ _)

/-! ## The penalty block (`_constraint_xy_eq_z` in `qubovert/_pubo.py`) -/

/-- `_constraint_xy_eq_z(x, y, z, lam)`: the penalty dictionary enforcing
`xy = z`, namely `{(z,): 3 lam, (x, y): lam, (x, z): -2 lam, (y, z): -2 lam}`. -/
def constraint_xy_eq_z (x y z : ℕ) (lam : ℚ) : List (Key × ℚ) :=
  [([z], 3 * lam), ([x, y], lam), ([x, z], -2 * lam), ([y, z], -2 * lam)]

theorem eval_constraint (x y z : ℕ) (lam : ℚ) (a : ℕ → ℚ) :
    eval (constraint_xy_eq_z x y z lam) a
      = 3 * lam * a z + lam * (a x * a y) - 2 * lam * (a x * a z)
        - 2 * lam * (a y * a z) := by
  simp [constraint_xy_eq_z, eval, keyVal]; ring

/-! ## The format converters (`qubovert/utils/_conversions.py`) -/

/-- One iteration of the loop in `qubo_to_ising`: squash the key (the
`QUBOMatrix` squash raises on degree above 2; such keys never occur in a
well-formed input and are left untouched here) and accumulate the closed-form
spin terms into the Ising container. -/
def quboToIsingStep (L : Poly) (kv : Key × ℚ) : Poly :=
  match squashBin kv.1, kv.2 with
  | [], v => addTermSpin L [] v
  | [i], v => addTermSpin (addTermSpin L [i] (v / 2)) [] (v / 2)
  | [i, j], v =>
      addTermSpin
        (addTermSpin (addTermSpin (addTermSpin L [i, j] (v / 4)) [i] (v / 4))
          [j] (v / 4)) [] (v / 4)
  | _, _ => L

/-- `qubo_to_ising(Q)` for a `QUBOMatrix` argument. -/
def qubo_to_ising (Q : Poly) : Poly := Q.foldl quboToIsingStep []

/-- One iteration of the loop in `ising_to_qubo`. -/
def isingToQuboStep (Q : Poly) (kv : Key × ℚ) : Poly :=
  match squashSpin kv.1, kv.2 with
  | [], v => addTermBin Q [] v
  | [i], v => addTermBin (addTermBin Q [i] (2 * v)) [] (-v)
  | [i, j], v =>
      addTermBin
        (addTermBin (addTermBin (addTermBin Q [i, j] (4 * v)) [i] (-(2 * v)))
          [j] (-(2 * v))) [] v
  | _, _ => Q

/-- `ising_to_qubo(L)` for an `IsingMatrix` argument. -/
def ising_to_qubo (L : Poly) : Poly := L.foldl isingToQuboStep []

/-- `generate_new_key_value` inside `pubo_to_hising`: recursively expand a
binary monomial into spin monomials, both branches carrying half the running
coefficient (the expansion of `x = (z+1)/2`). -/
def genBinSpin : Key → List (Key × ℚ)
  | [] => [([], 1)]
  | x :: k =>
      (genBinSpin k).flatMap (fun kv => [(x :: kv.1, kv.2 / 2), (kv.1, kv.2 / 2)])

/-- `generate_new_key_value` inside `hising_to_pubo`: recursively expand a
spin monomial into binary monomials, the keep branch doubling and the drop
branch negating the running coefficient (the expansion of `z = 2x - 1`). -/
def genSpinBin : Key → List (Key × ℚ)
  | [] => [([], 1)]
  | x :: k =>
      (genSpinBin k).flatMap (fun kv => [(x :: kv.1, 2 * kv.2), (kv.1, -kv.2)])

/-- One iteration of the loop in `pubo_to_hising`: expand the squashed key
and accumulate every generated spin term, scaled by the term value. -/
def puboToHisingStep (H : Poly) (kv : Key × ℚ) : Poly :=
  (genBinSpin (squashBin kv.1)).foldl
    (fun H kc => addTermSpin H kc.1 (kc.2 * kv.2)) H

/-- `pubo_to_hising(P)` for a `PUBOMatrix` argument. -/
def pubo_to_hising (P : Poly) : Poly := P.foldl puboToHisingStep []

/-- One iteration of the loop in `hising_to_pubo`. -/
def hisingToPuboStep (P : Poly) (kv : Key × ℚ) : Poly :=
  (genSpinBin (squashSpin kv.1)).foldl
    (fun P kc => addTermBin P kc.1 (kc.2 * kv.2)) P

/-- `hising_to_pubo(H)` for a `HIsingMatrix` argument. -/
def hising_to_pubo (H : Poly) : Poly := H.foldl hisingToPuboStep []

/-- A well-formed `QUBOMatrix`: a dict (pairwise distinct keys) with
canonical binary keys of degree at most 2 and no zero values stored. -/
def IsQUBOMat (Q : Poly) : Prop :=
  (Q.map Prod.fst).Nodup ∧
    ∀ kv ∈ Q, squashBin kv.1 = kv.1 ∧ kv.1.length ≤ 2 ∧ kv.2 ≠ 0

/-- A well-formed `PUBOMatrix`: a dict (pairwise distinct keys) with
canonical binary keys and no zero values stored. -/
def IsPUBOMat (P : Poly) : Prop :=
  (P.map Prod.fst).Nodup ∧ ∀ kv ∈ P, squashBin kv.1 = kv.1 ∧ kv.2 ≠ 0

theorem eval_quboToIsingStep (L : Poly) (k : Key) (v : ℚ) (x : ℕ → ℚ)
    (hcan : squashBin k = k) (hlen : k.length ≤ 2) :
    eval (quboToIsingStep L (k, v)) (fun i => 2 * x i - 1)
      = eval L (fun i => 2 * x i - 1) + v * keyVal x k := by
  have hstrict := strictKey_of_squashBin_eq hcan
  match k, hstrict, hcan, hlen with
  | [], _, hcan, _ =>
      simp [quboToIsingStep, squashBin_nil, addTermSpin, eval_addTermWith,
        squashSpin_nil, keyVal]
  | [i], _, hcan, _ =>
      simp [quboToIsingStep, squashBin_singleton, addTermSpin,
        eval_addTermWith, squashSpin_singleton, squashSpin_nil, keyVal]
      ring
  | [i, j], hstrict, hcan, _ =>
      have hspin : squashSpin [i, j] = [i, j] := squashSpin_eq_self hstrict
      simp only [quboToIsingStep, hcan, addTermSpin, eval_addTermWith, hspin,
        squashSpin_singleton, squashSpin_nil]
      simp [keyVal]
      ring
  | _ :: _ :: _ :: _, _, _, hlen => simp at hlen

/-- Claim C7: for every well-formed degree-at-most-2 binary polynomial `Q`
and every binary assignment `x`, the value of `Q` at `x` equals the value of
`qubo_to_ising Q` at the spin assignment `i ↦ 2 * x i - 1`. -/
theorem qubo_to_ising_preserves_value (Q : Poly) (x : ℕ → ℚ)
    (hQ : IsQUBOMat Q) (hx : BoolAssign x) :
    eval (qubo_to_ising Q) (fun i => 2 * x i - 1) = eval Q x := by
  rw [qubo_to_ising,
    foldl_additive_mem (μ := fun L => eval L (fun i => 2 * x i - 1))
      (g := fun kv => kv.2 * keyVal x kv.1) Q
      (fun L kv hkv => eval_quboToIsingStep L kv.1 kv.2 x (hQ.2 kv hkv).1
        (hQ.2 kv hkv).2.1) []]
  simp [eval]


/-- Claim C4: for every weight `lam > 0` and all distinct variables `x`, `y`,
`z`, the penalty polynomial `{(z,): 3 lam, (x,y): lam, (x,z): -2 lam,
(y,z): -2 lam}` returned by `_constraint_xy_eq_z` evaluates, on boolean
values of `(x, y, z)`, to exactly 0 when `z = x*y` and to at least `lam`
otherwise. -/
theorem constraint_penalty_correct (x y z : ℕ) (lam : ℚ) (a : ℕ → ℚ)
    (hlam : 0 < lam) (hxy : x ≠ y) (hxz : x ≠ z) (hyz : y ≠ z)
    (hx : a x = 0 ∨ a x = 1) (hy : a y = 0 ∨ a y = 1)
    (hz : a z = 0 ∨ a z = 1) :
    (a z = a x * a y → eval (constraint_xy_eq_z x y z lam) a = 0) ∧
      (a z ≠ a x * a y → lam ≤ eval (constraint_xy_eq_z x y z lam) a) := by
  constructor <;> intro h <;> rw [eval_constraint] <;>
    rcases hx with hx | hx <;> rcases hy with hy | hy <;>
    rcases hz with hz | hz <;> rw [hx, hy, hz] at h <;> rw [hx, hy, hz] <;>
    first
      | (exfalso; norm_num at h; done)
      | (norm_num; done)
      | (norm_num; linarith)
      | linarith


/-! ## Coefficient-level analysis of the converters -/

/-- Indicator (as a rational) that two keys coincide. -/
def indK (k key : Key) : ℚ := if k = key then 1 else 0

/-- Weighted sum of a function over a term list. -/
def wsum (l : List (Key × ℚ)) (f : Key × ℚ → ℚ) : ℚ := (l.map f).sum

theorem wsum_nil (f : Key × ℚ → ℚ) : wsum [] f = 0 := rfl

theorem wsum_cons (e : Key × ℚ) (l : List (Key × ℚ)) (f : Key × ℚ → ℚ) :
    wsum (e :: l) f = f e + wsum l f := by simp [wsum]

theorem wsum_smul (l : List (Key × ℚ)) (f : Key × ℚ → ℚ) (c : ℚ) :
    wsum l (fun kv => c * f kv) = c * wsum l f := by
  induction l with
  | nil => simp [wsum_nil]
  | cons e t ih => rw [wsum_cons, wsum_cons, ih]; ring

theorem wsum_congr {l : List (Key × ℚ)} {f g : Key × ℚ → ℚ}
    (h : ∀ kv ∈ l, f kv = g kv) : wsum l f = wsum l g := by
  induction l with
  | nil => rfl
  | cons e t ih =>
      rw [wsum_cons, wsum_cons, h e (List.mem_cons_self e t),
        ih (fun kv hkv => h kv (List.mem_cons_of_mem e hkv))]

theorem coeff_eq_wsum (P : Poly) (key : Key) :
    coeff P key = wsum P (fun kv => kv.2 * indK kv.1 key) := by
  induction P with
  | nil => rfl
  | cons e t ih =>
      rw [coeff_cons, wsum_cons, ih, indK]
      by_cases h : e.1 = key <;> simp [h]

/-- The closed-form per-key spread used by `qubo_to_ising`, abstracted over
what is collected at each produced key. -/
def spreadQI (f : Key → ℚ) (kp : Key) : ℚ :=
  match squashBin kp with
  | [] => f []
  | [i] => f [i] / 2 + f [] / 2
  | [i, j] => f [i, j] / 4 + f [i] / 4 + f [j] / 4 + f [] / 4
  | _ => 0

/-- The closed-form per-key spread used by `ising_to_qubo`. -/
def spreadI2Q (f : Key → ℚ) (kp : Key) : ℚ :=
  match squashSpin kp with
  | [] => f []
  | [i] => 2 * f [i] - f []
  | [i, j] => 4 * f [i, j] - 2 * f [i] - 2 * f [j] + f []
  | _ => 0

/-- Effect of one `ising_to_qubo` iteration on the coefficient at `key`,
per unit of term value. -/
def deltaI2Q (kp key : Key) : ℚ :=
  spreadI2Q (fun k => indK (squashBin k) key) kp

/-- Effect of one `qubo_to_ising` iteration on the coefficient at `key`,
per unit of term value. -/
def deltaQI (kp key : Key) : ℚ :=
  spreadQI (fun k => indK (squashSpin k) key) kp

/-- Effect of one `pubo_to_hising` iteration on the coefficient at `key`,
per unit of term value. -/
def deltaP2H (kp key : Key) : ℚ :=
  wsum (genBinSpin (squashBin kp)) (fun kc => kc.2 * indK (squashSpin kc.1) key)

/-- Effect of one `hising_to_pubo` iteration on the coefficient at `key`,
per unit of term value. -/
def deltaH2P (kp key : Key) : ℚ :=
  wsum (genSpinBin (squashSpin kp)) (fun kc => kc.2 * indK (squashBin kc.1) key)

theorem coeff_quboToIsingStep (L : Poly) (kp : Key) (v : ℚ) (key : Key) :
    coeff (quboToIsingStep L (kp, v)) key
      = coeff L key + v * deltaQI kp key := by
  rw [deltaQI, spreadQI]
  rcases hs : squashBin kp with _ | ⟨i, _ | ⟨j, _ | ⟨l, t⟩⟩⟩ <;>
    simp only [quboToIsingStep, hs, addTermSpin, coeff_addTermWith, indK] <;>
    first
      | (split_ifs <;> ring)
      | ring

theorem coeff_isingToQuboStep (Q : Poly) (kp : Key) (v : ℚ) (key : Key) :
    coeff (isingToQuboStep Q (kp, v)) key
      = coeff Q key + v * deltaI2Q kp key := by
  rw [deltaI2Q, spreadI2Q]
  rcases hs : squashSpin kp with _ | ⟨i, _ | ⟨j, _ | ⟨l, t⟩⟩⟩ <;>
    simp only [isingToQuboStep, hs, addTermBin, coeff_addTermWith, indK] <;>
    first
      | (split_ifs <;> ring)
      | ring

theorem coeff_puboToHisingStep (H : Poly) (kp : Key) (v : ℚ) (key : Key) :
    coeff (puboToHisingStep H (kp, v)) key
      = coeff H key + v * deltaP2H kp key := by
  rw [puboToHisingStep]
  rw [foldl_additive
    (μ := fun P => coeff P key)
    (g := fun kc => v * (kc.2 * indK (squashSpin kc.1) key))
    (fun L kc => by
      simp only [addTermSpin, coeff_addTermWith, indK]
      split_ifs <;> ring)
    (genBinSpin (squashBin kp)) H]
  rw [show ((genBinSpin (squashBin kp)).map
      (fun kc => v * (kc.2 * indK (squashSpin kc.1) key))).sum
    = wsum (genBinSpin (squashBin kp))
        (fun kc => v * (kc.2 * indK (squashSpin kc.1) key)) from rfl]
  rw [wsum_smul, deltaP2H]

theorem coeff_hisingToPuboStep (P : Poly) (kp : Key) (v : ℚ) (key : Key) :
    coeff (hisingToPuboStep P (kp, v)) key
      = coeff P key + v * deltaH2P kp key := by
  rw [hisingToPuboStep]
  rw [foldl_additive
    (μ := fun P => coeff P key)
    (g := fun kc => v * (kc.2 * indK (squashBin kc.1) key))
    (fun L kc => by
      simp only [addTermBin, coeff_addTermWith, indK]
      split_ifs <;> ring)
    (genSpinBin (squashSpin kp)) P]
  rw [show ((genSpinBin (squashSpin kp)).map
      (fun kc => v * (kc.2 * indK (squashBin kc.1) key))).sum
    = wsum (genSpinBin (squashSpin kp))
        (fun kc => v * (kc.2 * indK (squashBin kc.1) key)) from rfl]
  rw [wsum_smul, deltaH2P]

theorem coeff_qubo_to_ising (Q : Poly) (key : Key) :
    coeff (qubo_to_ising Q) key
      = wsum Q (fun kv => kv.2 * deltaQI kv.1 key) := by
  rw [qubo_to_ising,
    foldl_additive (μ := fun L => coeff L key)
      (g := fun kv => kv.2 * deltaQI kv.1 key)
      (fun L kv => coeff_quboToIsingStep L kv.1 kv.2 key) Q []]
  simp [coeff_nil, wsum]

theorem coeff_ising_to_qubo (L : Poly) (key : Key) :
    coeff (ising_to_qubo L) key
      = wsum L (fun kv => kv.2 * deltaI2Q kv.1 key) := by
  rw [ising_to_qubo,
    foldl_additive (μ := fun P => coeff P key)
      (g := fun kv => kv.2 * deltaI2Q kv.1 key)
      (fun P kv => coeff_isingToQuboStep P kv.1 kv.2 key) L []]
  simp [coeff_nil, wsum]

theorem coeff_pubo_to_hising (P : Poly) (key : Key) :
    coeff (pubo_to_hising P) key
      = wsum P (fun kv => kv.2 * deltaP2H kv.1 key) := by
  rw [pubo_to_hising,
    foldl_additive (μ := fun H => coeff H key)
      (g := fun kv => kv.2 * deltaP2H kv.1 key)
      (fun H kv => coeff_puboToHisingStep H kv.1 kv.2 key) P []]
  simp [coeff_nil, wsum]

theorem coeff_hising_to_pubo (H : Poly) (key : Key) :
    coeff (hising_to_pubo H) key
      = wsum H (fun kv => kv.2 * deltaH2P kv.1 key) := by
  rw [hising_to_pubo,
    foldl_additive (μ := fun P => coeff P key)
      (g := fun kv => kv.2 * deltaH2P kv.1 key)
      (fun P kv => coeff_hisingToPuboStep P kv.1 kv.2 key) H []]
  simp [coeff_nil, wsum]


/-! ## Weighted sums through container updates, container invariants -/

theorem wsum_removeKey (L : Poly) (k : Key) (h : Key → ℚ) :
    wsum (removeKey L k) (fun kv => kv.2 * h kv.1)
      = wsum L (fun kv => kv.2 * h kv.1) - coeff L k * h k := by
  induction L with
  | nil => simp [removeKey_nil, wsum_nil, coeff_nil]
  | cons e t ih =>
      rw [removeKey_cons, coeff_cons]
      by_cases he : e.1 = k
      · rw [if_pos he, ih, if_pos he, wsum_cons, he]; ring
      · rw [if_neg he, wsum_cons, wsum_cons, ih, if_neg he]; ring

theorem wsum_setCoeff (L : Poly) (k : Key) (c : ℚ) (h : Key → ℚ) :
    wsum (setCoeff L k c) (fun kv => kv.2 * h kv.1)
      = wsum L (fun kv => kv.2 * h kv.1) + (c - coeff L k) * h k := by
  by_cases hc : c = 0
  · rw [setCoeff, if_pos hc, wsum_removeKey, hc]; ring
  · rw [setCoeff, if_neg hc, wsum_cons, wsum_removeKey]; ring

theorem wsum_addTermWith (sq : Key → Key) (L : Poly) (k : Key) (v : ℚ)
    (h : Key → ℚ) :
    wsum (addTermWith sq L k v) (fun kv => kv.2 * h kv.1)
      = wsum L (fun kv => kv.2 * h kv.1) + v * h (sq k) := by
  rw [addTermWith, wsum_setCoeff]; ring

/-- The sum of the stored values weighted by a two-key kernel; the kernel
describes what one unit of coefficient at a stored key contributes to the
coefficient at `key` after a further conversion. -/
def phiW (d : Key → Key → ℚ) (key : Key) (L : Poly) : ℚ :=
  wsum L (fun kv => kv.2 * d kv.1 key)

theorem phiW_addTermWith (d : Key → Key → ℚ) (sq : Key → Key) (key : Key)
    (L : Poly) (k : Key) (v : ℚ) :
    phiW d key (addTermWith sq L k v) = phiW d key L + v * d (sq k) key :=
  wsum_addTermWith sq L k v (fun k0 => d k0 key)

/-- The container invariant of the Python dict based matrices: pairwise
distinct keys and no stored zero. -/
def GoodPoly (P : Poly) : Prop :=
  (P.map Prod.fst).Nodup ∧ ∀ kv ∈ P, kv.2 ≠ 0

theorem goodPoly_nil : GoodPoly [] := ⟨List.nodup_nil, by intro kv h; cases h⟩

theorem not_mem_keys_removeKey (P : Poly) (k : Key) :
    k ∉ (removeKey P k).map Prod.fst := by
  intro h
  obtain ⟨kv, hkv, hfst⟩ := List.mem_map.1 h
  have := (List.mem_filter.1 hkv).2
  rw [decide_eq_true_iff] at this
  exact this hfst

theorem goodPoly_removeKey (P : Poly) (k : Key) (h : GoodPoly P) :
    GoodPoly (removeKey P k) := by
  refine ⟨h.1.sublist ((List.filter_sublist P).map Prod.fst), ?_⟩
  intro kv hkv
  exact h.2 kv (List.mem_of_mem_filter hkv)

theorem goodPoly_setCoeff (P : Poly) (k : Key) (c : ℚ) (h : GoodPoly P) :
    GoodPoly (setCoeff P k c) := by
  by_cases hc : c = 0
  · rw [setCoeff, if_pos hc]; exact goodPoly_removeKey P k h
  · rw [setCoeff, if_neg hc]
    have hg := goodPoly_removeKey P k h
    refine ⟨?_, ?_⟩
    · rw [List.map_cons]
      exact List.Nodup.cons (not_mem_keys_removeKey P k) hg.1
    · intro kv hkv
      rcases List.mem_cons.1 hkv with rfl | hkv
      · exact hc
      · exact hg.2 kv hkv

theorem goodPoly_addTermWith (sq : Key → Key) (P : Poly) (k : Key) (v : ℚ)
    (h : GoodPoly P) : GoodPoly (addTermWith sq P k v) :=
  goodPoly_setCoeff P (sq k) _ h

/-- Invariants carried through a fold. -/
theorem inv_foldl {α : Type} {Inv : Poly → Prop} {step : Poly → α → Poly}
    (hstep : ∀ L x, Inv L → Inv (step L x)) :
    ∀ (items : List α) (L : Poly), Inv L → Inv (items.foldl step L)
  | [], L, h => h
  | x :: t, L, h => inv_foldl hstep t (step L x) (hstep L x h)

theorem goodPoly_quboToIsingStep (L : Poly) (kv : Key × ℚ)
    (h : GoodPoly L) : GoodPoly (quboToIsingStep L kv) := by
  rcases hs : squashBin kv.1 with _ | ⟨i, _ | ⟨j, _ | ⟨l, t⟩⟩⟩ <;>
    obtain ⟨k, v⟩ := kv <;>
    simp only [quboToIsingStep, hs] at * <;>
    first
      | exact h
      | (repeat apply goodPoly_addTermWith) <;> exact h

theorem goodPoly_isingToQuboStep (L : Poly) (kv : Key × ℚ)
    (h : GoodPoly L) : GoodPoly (isingToQuboStep L kv) := by
  rcases hs : squashSpin kv.1 with _ | ⟨i, _ | ⟨j, _ | ⟨l, t⟩⟩⟩ <;>
    obtain ⟨k, v⟩ := kv <;>
    simp only [isingToQuboStep, hs] at * <;>
    first
      | exact h
      | (repeat apply goodPoly_addTermWith) <;> exact h

theorem goodPoly_puboToHisingStep (L : Poly) (kv : Key × ℚ)
    (h : GoodPoly L) : GoodPoly (puboToHisingStep L kv) :=
  inv_foldl (fun L kc hL => goodPoly_addTermWith squashSpin L kc.1 _ hL) _ L h

theorem goodPoly_hisingToPuboStep (L : Poly) (kv : Key × ℚ)
    (h : GoodPoly L) : GoodPoly (hisingToPuboStep L kv) :=
  inv_foldl (fun L kc hL => goodPoly_addTermWith squashBin L kc.1 _ hL) _ L h

theorem goodPoly_qubo_to_ising (Q : Poly) : GoodPoly (qubo_to_ising Q) :=
  inv_foldl goodPoly_quboToIsingStep Q [] goodPoly_nil

theorem goodPoly_ising_to_qubo (L : Poly) : GoodPoly (ising_to_qubo L) :=
  inv_foldl goodPoly_isingToQuboStep L [] goodPoly_nil

theorem goodPoly_pubo_to_hising (P : Poly) : GoodPoly (pubo_to_hising P) :=
  inv_foldl goodPoly_puboToHisingStep P [] goodPoly_nil

theorem goodPoly_hising_to_pubo (H : Poly) : GoodPoly (hising_to_pubo H) :=
  inv_foldl goodPoly_hisingToPuboStep H [] goodPoly_nil

theorem coeff_eq_zero_of_not_mem_keys {P : Poly} {k : Key}
    (h : k ∉ P.map Prod.fst) : coeff P k = 0 := by
  induction P with
  | nil => rfl
  | cons e t ih =>
      rw [coeff_cons]
      rw [List.map_cons] at h
      have h1 : ¬ e.1 = k := fun hek => h (by rw [hek]; exact List.mem_cons_self _ _)
      rw [if_neg h1, ih (fun hk => h (List.mem_cons_of_mem _ hk)), add_zero]

/-- On a well-formed container, an entry is stored exactly when its value is
nonzero and equals the looked-up coefficient.  This identifies a container
with its coefficient function, which is how Python compares dicts. -/
theorem mem_iff_coeff {P : Poly} (hP : GoodPoly P) (e : Key × ℚ) :
    e ∈ P ↔ (e.2 ≠ 0 ∧ coeff P e.1 = e.2) := by
  induction P with
  | nil =>
      constructor
      · intro h; cases h
      · rintro ⟨h1, h2⟩; rw [coeff_nil] at h2; exact absurd h2.symm h1
  | cons f t ih =>
      have hft : GoodPoly t := by
        refine ⟨(List.nodup_cons.1 (by simpa using hP.1)).2, ?_⟩
        intro kv hkv; exact hP.2 kv (List.mem_cons_of_mem f hkv)
      have hf1 : f.1 ∉ t.map Prod.fst :=
        (List.nodup_cons.1 (by simpa using hP.1)).1
      rw [coeff_cons]
      by_cases he : f.1 = e.1
      · have ht0 : coeff t e.1 = 0 :=
          coeff_eq_zero_of_not_mem_keys (by rw [← he]; exact hf1)
        rw [if_pos he, ht0, add_zero]
        constructor
        · intro h
          rcases List.mem_cons.1 h with rfl | h
          · exact ⟨hP.2 e (List.mem_cons_self e t), rfl⟩
          · exact absurd (by rw [he]; exact List.mem_map_of_mem Prod.fst h) hf1
        · rintro ⟨h1, h2⟩
          have hfe : f = e := by
            obtain ⟨e1, e2⟩ := e
            obtain ⟨g1, g2⟩ := f
            simp only at he h2
            rw [he, h2]
          rw [hfe]
          exact List.mem_cons_self e t
      · rw [if_neg he, zero_add]
        constructor
        · intro h
          rcases List.mem_cons.1 h with rfl | h
          · exact absurd rfl he
          · exact (ih hft).1 h
        · intro h
          exact List.mem_cons_of_mem f ((ih hft).2 h)

/-- Python dict equality: the two containers hold exactly the same
(key, value) entries. -/
def dictEq (P Q : Poly) : Prop := ∀ e : Key × ℚ, e ∈ P ↔ e ∈ Q


/-! ## The bounded-degree round trip (C5) and refinement (C10) -/

theorem isQUBOMat_goodPoly {Q : Poly} (h : IsQUBOMat Q) : GoodPoly Q :=
  ⟨h.1, fun kv hkv => (h.2 kv hkv).2.2⟩

theorem isPUBOMat_goodPoly {P : Poly} (h : IsPUBOMat P) : GoodPoly P :=
  ⟨h.1, fun kv hkv => (h.2 kv hkv).2⟩

theorem deltaI2Q_squashSpin (k key : Key) :
    deltaI2Q (squashSpin k) key = deltaI2Q k key := by
  rw [deltaI2Q, deltaI2Q, spreadI2Q, spreadI2Q, squashSpin_idem]

theorem deltaH2P_squashSpin (k key : Key) :
    deltaH2P (squashSpin k) key = deltaH2P k key := by
  rw [deltaH2P, deltaH2P, squashSpin_idem]

/-- Effect of one `qubo_to_ising` iteration on the `deltaI2Q`-weighted sum:
the composed per-term coefficient contribution of the round trip. -/
theorem phiI2Q_quboToIsingStep (L : Poly) (kp : Key) (v : ℚ) (key : Key) :
    phiW deltaI2Q key (quboToIsingStep L (kp, v))
      = phiW deltaI2Q key L + v * spreadQI (fun k => deltaI2Q k key) kp := by
  rw [spreadQI]
  rcases hs : squashBin kp with _ | ⟨i, _ | ⟨j, _ | ⟨l, t⟩⟩⟩ <;>
    simp only [quboToIsingStep, hs, addTermSpin, phiW_addTermWith,
      deltaI2Q_squashSpin] <;>
    ring

/-- For a canonical key of degree at most 2, pushing one unit of coefficient
through `qubo_to_ising` and back through `ising_to_qubo` reproduces exactly
the original key. -/
theorem spreadQI_deltaI2Q (kp key : Key)
    (hcan : squashBin kp = kp) (hlen : kp.length ≤ 2) :
    spreadQI (fun k => deltaI2Q k key) kp = indK kp key := by
  have hstrict := strictKey_of_squashBin_eq hcan
  match kp, hstrict, hcan, hlen with
  | [], _, hcan, _ =>
      simp only [spreadQI, squashBin_nil, deltaI2Q, spreadI2Q, squashSpin_nil]
  | [i], _, hcan, _ =>
      simp only [spreadQI, squashBin_singleton, squashBin_nil, deltaI2Q,
        spreadI2Q, squashSpin_singleton, squashSpin_nil]
      ring
  | [i, j], hstrict, hcan, _ =>
      have hspin : squashSpin [i, j] = [i, j] := squashSpin_eq_self hstrict
      simp only [spreadQI, hcan, deltaI2Q, spreadI2Q, hspin,
        squashSpin_singleton, squashSpin_nil, squashBin_singleton,
        squashBin_nil]
      ring
  | _ :: _ :: _ :: _, _, _, hlen => simp at hlen

/-- Claim C5: for every well-formed degree-at-most-2 binary polynomial `Q`
(a `QUBOMatrix`), `ising_to_qubo (qubo_to_ising Q)` equals `Q`: the two
containers hold exactly the same entries (and hence the same coefficient
function). -/
theorem ising_to_qubo_qubo_to_ising (Q : Poly) (hQ : IsQUBOMat Q) :
    dictEq (ising_to_qubo (qubo_to_ising Q)) Q ∧
      ∀ key, coeff (ising_to_qubo (qubo_to_ising Q)) key = coeff Q key := by
  have hco : ∀ key, coeff (ising_to_qubo (qubo_to_ising Q)) key = coeff Q key := by
    intro key
    have h1 : coeff (ising_to_qubo (qubo_to_ising Q)) key
        = phiW deltaI2Q key (qubo_to_ising Q) := coeff_ising_to_qubo _ key
    rw [h1, qubo_to_ising,
      foldl_additive_mem (μ := phiW deltaI2Q key)
        (g := fun kv => kv.2 * spreadQI (fun k => deltaI2Q k key) kv.1) Q
        (fun L kv _ => phiI2Q_quboToIsingStep L kv.1 kv.2 key) []]
    rw [show phiW deltaI2Q key ([] : Poly) = 0 from rfl, zero_add]
    rw [show (Q.map fun kv => kv.2 * spreadQI (fun k => deltaI2Q k key) kv.1).sum
        = wsum Q (fun kv => kv.2 * spreadQI (fun k => deltaI2Q k key) kv.1)
      from rfl]
    rw [coeff_eq_wsum]
    exact wsum_congr (fun kv hkv => by
      rw [spreadQI_deltaI2Q kv.1 key (hQ.2 kv hkv).1 (hQ.2 kv hkv).2.1])
  refine ⟨?_, hco⟩
  intro e
  rw [mem_iff_coeff (goodPoly_ising_to_qubo _) e,
    mem_iff_coeff (isQUBOMat_goodPoly hQ) e, hco]

theorem genBinSpin_nil : genBinSpin [] = [([], 1)] := rfl

theorem genBinSpin_one (i : ℕ) :
    genBinSpin [i] = [([i], 1 / 2), ([], 1 / 2)] := by
  simp [genBinSpin]

theorem genBinSpin_two (i j : ℕ) :
    genBinSpin [i, j]
      = [([i, j], 1 / 2 / 2), ([j], 1 / 2 / 2), ([i], 1 / 2 / 2),
          ([], 1 / 2 / 2)] := by
  simp [genBinSpin]

/-- On canonical keys of degree at most 2 the closed-form `qubo_to_ising`
spread coincides with the recursive `pubo_to_hising` expansion. -/
theorem deltaQI_eq_deltaP2H (kp key : Key)
    (hcan : squashBin kp = kp) (hlen : kp.length ≤ 2) :
    deltaQI kp key = deltaP2H kp key := by
  match kp, hlen with
  | [], _ =>
      simp only [deltaQI, spreadQI, squashBin_nil, deltaP2H, genBinSpin_nil,
        wsum_cons, wsum_nil]
      ring
  | [i], _ =>
      simp only [deltaQI, spreadQI, squashBin_singleton, deltaP2H,
        genBinSpin_one, wsum_cons, wsum_nil]
      ring
  | [i, j], _ =>
      simp only [deltaQI, spreadQI, hcan, deltaP2H, genBinSpin_two,
        wsum_cons, wsum_nil]
      ring
  | _ :: _ :: _ :: _, hlen => simp at hlen

/-- Claim C10: on every well-formed `QUBOMatrix` input the closed-form
converter `qubo_to_ising` and the general recursive converter
`pubo_to_hising` produce equal polynomials: the same entries and the same
coefficient function. -/
theorem qubo_to_ising_eq_pubo_to_hising (Q : Poly) (hQ : IsQUBOMat Q) :
    dictEq (qubo_to_ising Q) (pubo_to_hising Q) ∧
      ∀ key, coeff (qubo_to_ising Q) key = coeff (pubo_to_hising Q) key := by
  have hco : ∀ key, coeff (qubo_to_ising Q) key = coeff (pubo_to_hising Q) key := by
    intro key
    rw [coeff_qubo_to_ising, coeff_pubo_to_hising]
    exact wsum_congr (fun kv hkv => by
      rw [deltaQI_eq_deltaP2H kv.1 key (hQ.2 kv hkv).1 (hQ.2 kv hkv).2.1])
  refine ⟨?_, hco⟩
  intro e
  rw [mem_iff_coeff (goodPoly_qubo_to_ising _) e,
    mem_iff_coeff (goodPoly_pubo_to_hising _) e, hco]


/-! ## The general-degree round trip (C6) -/

theorem wsum_zero (l : List (Key × ℚ)) : wsum l (fun _ => 0) = 0 := by
  induction l with
  | nil => rfl
  | cons e t ih => rw [wsum_cons, ih, add_zero]

theorem wsum_append (l1 l2 : List (Key × ℚ)) (f : Key × ℚ → ℚ) :
    wsum (l1 ++ l2) f = wsum l1 f + wsum l2 f := by
  simp [wsum]

theorem wsum_flatMap (l : List (Key × ℚ)) (F : Key × ℚ → List (Key × ℚ))
    (g : Key × ℚ → ℚ) :
    wsum (l.flatMap F) g = wsum l (fun kv => wsum (F kv) g) := by
  induction l with
  | nil => rfl
  | cons e t ih => rw [List.flatMap_cons, wsum_append, wsum_cons, ih]

theorem wsum_add (l : List (Key × ℚ)) (f g : Key × ℚ → ℚ) :
    wsum l (fun kv => f kv + g kv) = wsum l f + wsum l g := by
  induction l with
  | nil => simp [wsum_nil]
  | cons e t ih => rw [wsum_cons, wsum_cons, wsum_cons, ih]; ring

theorem genBinSpin_key_sublist :
    ∀ (k : Key) (kc : Key × ℚ), kc ∈ genBinSpin k → kc.1.Sublist k := by
  intro k
  induction k with
  | nil =>
      intro kc h
      rw [genBinSpin_nil, List.mem_singleton] at h
      rw [h]
  | cons x t ih =>
      intro kc h
      rw [show genBinSpin (x :: t)
          = (genBinSpin t).flatMap
              (fun kv => [(x :: kv.1, kv.2 / 2), (kv.1, kv.2 / 2)]) from rfl,
        List.mem_flatMap] at h
      obtain ⟨kv, hkv, hmem⟩ := h
      rcases List.mem_cons.1 hmem with rfl | hmem
      · exact List.Sublist.cons₂ x (ih kv hkv)
      · rw [List.mem_singleton] at hmem
        rw [hmem]
        exact List.Sublist.cons x (ih kv hkv)

theorem genSpinBin_key_sublist :
    ∀ (k : Key) (kc : Key × ℚ), kc ∈ genSpinBin k → kc.1.Sublist k := by
  intro k
  induction k with
  | nil =>
      intro kc h
      rw [show genSpinBin [] = [([], 1)] from rfl, List.mem_singleton] at h
      rw [h]
  | cons x t ih =>
      intro kc h
      rw [show genSpinBin (x :: t)
          = (genSpinBin t).flatMap
              (fun kv => [(x :: kv.1, 2 * kv.2), (kv.1, -kv.2)]) from rfl,
        List.mem_flatMap] at h
      obtain ⟨kv, hkv, hmem⟩ := h
      rcases List.mem_cons.1 hmem with rfl | hmem
      · exact List.Sublist.cons₂ x (ih kv hkv)
      · rw [List.mem_singleton] at hmem
        rw [hmem]
        exact List.Sublist.cons x (ih kv hkv)

theorem strictKey_sublist {k k' : Key} (h : k'.Sublist k) (hs : StrictKey k) :
    StrictKey k' := List.Pairwise.sublist h hs

theorem indK_cons_cons (x : ℕ) (k t : Key) :
    indK (x :: k) (x :: t) = indK k t := by
  simp [indK]

/-- The heart of the general round trip: pushing one unit of coefficient at
a strictly sorted key through the binary-to-spin expansion and then every
produced term through the spin-to-binary expansion reproduces exactly the
original key. -/
theorem genRoundTrip :
    ∀ (k : Key), StrictKey k → ∀ key : Key,
    wsum (genBinSpin k) (fun kc => kc.2 * deltaH2P kc.1 key) = indK k key := by
  intro k
  induction k with
  | nil =>
      intro _ key
      simp [genBinSpin_nil, wsum_cons, wsum_nil, deltaH2P, squashSpin_nil,
        genSpinBin, squashBin_nil]
  | cons x t ih =>
      intro hs key
      have hxt : ∀ y ∈ t, x < y := (List.pairwise_cons.1 hs).1
      have ht : StrictKey t := (List.pairwise_cons.1 hs).2
      rw [show genBinSpin (x :: t)
          = (genBinSpin t).flatMap
              (fun kv => [(x :: kv.1, kv.2 / 2), (kv.1, kv.2 / 2)]) from rfl]
      rw [wsum_flatMap]
      have hpt : ∀ kv ∈ genBinSpin t,
          wsum [(x :: kv.1, kv.2 / 2), (kv.1, kv.2 / 2)]
              (fun kc => kc.2 * deltaH2P kc.1 key)
            = kv.2 * wsum (genSpinBin kv.1)
                (fun kc => kc.2 * indK (x :: kc.1) key) := by
        intro kv hkv
        have hsub : kv.1.Sublist t := genBinSpin_key_sublist t kv hkv
        have hkv1 : StrictKey kv.1 := strictKey_sublist hsub ht
        have hxkv : StrictKey (x :: kv.1) :=
          List.pairwise_cons.2 ⟨fun y hy => hxt y (hsub.subset hy), hkv1⟩
        have hd1 : deltaH2P (x :: kv.1) key
            = wsum (genSpinBin kv.1)
                (fun kc => 2 * kc.2 * indK (squashBin (x :: kc.1)) key
                  + -kc.2 * indK (squashBin kc.1) key) := by
          rw [deltaH2P, squashSpin_eq_self hxkv]
          rw [show genSpinBin (x :: kv.1)
              = (genSpinBin kv.1).flatMap
                  (fun kc => [(x :: kc.1, 2 * kc.2), (kc.1, -kc.2)]) from rfl]
          rw [wsum_flatMap]
          exact wsum_congr (fun kc _ => by
            simp [wsum_cons, wsum_nil]
            try ring)
        have hd2 : deltaH2P kv.1 key
            = wsum (genSpinBin kv.1)
                (fun kc => kc.2 * indK (squashBin kc.1) key) := by
          rw [deltaH2P, squashSpin_eq_self hkv1]
        simp only [wsum_cons, wsum_nil, add_zero]
        rw [hd1, hd2]
        rw [show (kv.2 / 2)
              * wsum (genSpinBin kv.1)
                  (fun kc => 2 * kc.2 * indK (squashBin (x :: kc.1)) key
                    + -kc.2 * indK (squashBin kc.1) key)
            = wsum (genSpinBin kv.1)
                (fun kc => kv.2 / 2
                  * (2 * kc.2 * indK (squashBin (x :: kc.1)) key
                      + -kc.2 * indK (squashBin kc.1) key)) from
          (wsum_smul _ _ _).symm]
        rw [show (kv.2 / 2)
              * wsum (genSpinBin kv.1)
                  (fun kc => kc.2 * indK (squashBin kc.1) key)
            = wsum (genSpinBin kv.1)
                (fun kc => kv.2 / 2 * (kc.2 * indK (squashBin kc.1) key)) from
          (wsum_smul _ _ _).symm]
        rw [show kv.2 * wsum (genSpinBin kv.1)
              (fun kc => kc.2 * indK (x :: kc.1) key)
            = wsum (genSpinBin kv.1)
                (fun kc => kv.2 * (kc.2 * indK (x :: kc.1) key)) from
          (wsum_smul _ _ _).symm]
        rw [← wsum_add]
        refine wsum_congr (fun kc hkc => ?_)
        have hsubc : kc.1.Sublist kv.1 := genSpinBin_key_sublist kv.1 kc hkc
        have hstrc : StrictKey kc.1 := strictKey_sublist hsubc hkv1
        have hstrxc : StrictKey (x :: kc.1) :=
          List.pairwise_cons.2
            ⟨fun y hy => hxt y (hsub.subset (hsubc.subset hy)), hstrc⟩
        rw [squashBin_eq_self hstrxc, squashBin_eq_self hstrc]
        ring
      rw [wsum_congr hpt]
      rcases key with _ | ⟨y, u⟩
      · have h0 : ∀ kv ∈ genBinSpin t,
            kv.2 * wsum (genSpinBin kv.1)
                (fun kc => kc.2 * indK (x :: kc.1) ([] : Key)) = 0 := by
          intro kv _
          have : ∀ kc ∈ genSpinBin kv.1,
              kc.2 * indK (x :: kc.1) ([] : Key) = 0 := by
            intro kc _
            simp [indK]
          rw [wsum_congr this, wsum_zero, mul_zero]
        rw [wsum_congr h0, wsum_zero]
        simp [indK]
      · by_cases hxy : x = y
        · subst hxy
          have hpt2 : ∀ kv ∈ genBinSpin t,
              kv.2 * wsum (genSpinBin kv.1)
                  (fun kc => kc.2 * indK (x :: kc.1) (x :: u))
                = kv.2 * deltaH2P kv.1 u := by
            intro kv hkv
            have hsub : kv.1.Sublist t := genBinSpin_key_sublist t kv hkv
            have hkv1 : StrictKey kv.1 := strictKey_sublist hsub ht
            congr 1
            rw [deltaH2P, squashSpin_eq_self hkv1]
            refine wsum_congr (fun kc hkc => ?_)
            have hsubc : kc.1.Sublist kv.1 := genSpinBin_key_sublist kv.1 kc hkc
            have hstrc : StrictKey kc.1 := strictKey_sublist hsubc hkv1
            rw [indK_cons_cons, squashBin_eq_self hstrc]
          rw [wsum_congr hpt2, ih ht u, indK_cons_cons]
        · have h0 : ∀ kv ∈ genBinSpin t,
              kv.2 * wsum (genSpinBin kv.1)
                  (fun kc => kc.2 * indK (x :: kc.1) (y :: u)) = 0 := by
            intro kv _
            have : ∀ kc ∈ genSpinBin kv.1,
                kc.2 * indK (x :: kc.1) (y :: u) = 0 := by
              intro kc _
              simp [indK, hxy]
            rw [wsum_congr this, wsum_zero, mul_zero]
          rw [wsum_congr h0, wsum_zero]
          simp [indK, hxy]

theorem phiH2P_puboToHisingStep (H : Poly) (kp : Key) (v : ℚ) (key : Key) :
    phiW deltaH2P key (puboToHisingStep H (kp, v))
      = phiW deltaH2P key H
        + v * wsum (genBinSpin (squashBin kp))
            (fun kc => kc.2 * deltaH2P kc.1 key) := by
  rw [puboToHisingStep]
  rw [foldl_additive (μ := phiW deltaH2P key)
    (g := fun kc => v * (kc.2 * deltaH2P kc.1 key))
    (fun L kc => by
      simp only [addTermSpin, phiW_addTermWith, deltaH2P_squashSpin]
      ring)
    (genBinSpin (squashBin kp)) H]
  rw [show ((genBinSpin (squashBin kp)).map
      (fun kc => v * (kc.2 * deltaH2P kc.1 key))).sum
    = wsum (genBinSpin (squashBin kp))
        (fun kc => v * (kc.2 * deltaH2P kc.1 key)) from rfl]
  rw [wsum_smul]

/-- Claim C6: for every well-formed arbitrary-degree binary polynomial `P`
(a `PUBOMatrix`), `hising_to_pubo (pubo_to_hising P)` equals `P` exactly:
the containers hold the same entries, every coefficient round-trips, and no
extra nonzero term remains. -/
theorem hising_to_pubo_pubo_to_hising (P : Poly) (hP : IsPUBOMat P) :
    dictEq (hising_to_pubo (pubo_to_hising P)) P ∧
      ∀ key, coeff (hising_to_pubo (pubo_to_hising P)) key = coeff P key := by
  have hco : ∀ key,
      coeff (hising_to_pubo (pubo_to_hising P)) key = coeff P key := by
    intro key
    have h1 : coeff (hising_to_pubo (pubo_to_hising P)) key
        = phiW deltaH2P key (pubo_to_hising P) := coeff_hising_to_pubo _ key
    rw [h1, pubo_to_hising,
      foldl_additive_mem (μ := phiW deltaH2P key)
        (g := fun kv => kv.2 * wsum (genBinSpin (squashBin kv.1))
          (fun kc => kc.2 * deltaH2P kc.1 key)) P
        (fun L kv _ => phiH2P_puboToHisingStep L kv.1 kv.2 key) []]
    rw [show phiW deltaH2P key ([] : Poly) = 0 from rfl, zero_add]
    rw [show (P.map fun kv => kv.2 * wsum (genBinSpin (squashBin kv.1))
        (fun kc => kc.2 * deltaH2P kc.1 key)).sum
      = wsum P (fun kv => kv.2 * wsum (genBinSpin (squashBin kv.1))
          (fun kc => kc.2 * deltaH2P kc.1 key)) from rfl]
    rw [coeff_eq_wsum]
    refine wsum_congr (fun kv hkv => ?_)
    have hcan := (hP.2 kv hkv).1
    rw [hcan, genRoundTrip kv.1 (strictKey_of_squashBin_eq hcan) key]
  refine ⟨?_, hco⟩
  intro e
  rw [mem_iff_coeff (goodPoly_hising_to_pubo _) e,
    mem_iff_coeff (isPUBOMat_goodPoly hP) e, hco]


/-! ## Degree reduction: `PUBO.to_qubo` (`qubovert/_pubo.py`) -/

/-- The state threaded through one `to_qubo` call: the output QUBO container
`Q`, the `reductions` registry (pair of indices → ancilla index, in
registration order) and the next free ancilla label. -/
structure RedState where
  Q : Poly
  reds : List ((ℕ × ℕ) × ℕ)
  anc : ℕ
deriving DecidableEq

/-- Registry lookup: `reductions[(x, y)]` / `(x, y) in reductions`. -/
def lookupRed (reds : List ((ℕ × ℕ) × ℕ)) (p : ℕ × ℕ) : Option ℕ :=
  (reds.find? (fun e => decide (e.1 = p))).map (fun e => e.2)

/-- Inner loop of the pair scan: `for y in k[i+1:]: if (x, y) in reductions`. -/
def findPairAux (reds : List ((ℕ × ℕ) × ℕ)) (x : ℕ) :
    Key → Option ((ℕ × ℕ) × ℕ)
  | [] => none
  | y :: ys =>
      match lookupRed reds (x, y) with
      | some z => some ((x, y), z)
      | none => findPairAux reds x ys

/-- The scan for the first pair of `k` (in sorted order) already present in
the registry, returned together with its ancilla. -/
def findPair (reds : List ((ℕ × ℕ) × ℕ)) : Key → Option ((ℕ × ℕ) × ℕ)
  | [] => none
  | x :: rest =>
      match findPairAux reds x rest with
      | some r => some r
      | none => findPair reds rest

/-- `Q += _constraint_xy_eq_z(x, y, z, lam(v))`: termwise accumulation of
the penalty dict into the QUBO container (modelled from the spec: polynomial
addition accumulates entry by entry). -/
def addConstraint (Q : Poly) (x y z : ℕ) (lam : ℚ) : Poly :=
  (constraint_xy_eq_z x y z lam).foldl (fun Q kv => addTermBin Q kv.1 kv.2) Q

/-- The choice of the pair `(x, y)` and ancilla `z` inside one pass of the
`to_qubo` reduction loop: reuse the first registered pair of `k` if one
exists, otherwise mint a fresh ancilla for the first two indices of `k` and
register it.  Returns `(x, y, z, reductions, ancilla counter)`. -/
def reduceChoose (st : RedState) (x0 x1 : ℕ) (k : Key) :
    ℕ × ℕ × ℕ × List ((ℕ × ℕ) × ℕ) × ℕ :=
  match findPair st.reds k with
  | some ((x, y), z) => (x, y, z, st.reds, st.anc)
  | none => (x0, x1, st.anc, st.reds ++ [((x0, x1), st.anc)], st.anc + 1)

/-- The `while len(k) > 2` loop of `to_qubo`, with explicit fuel (each pass
removes the two paired indices and appends one ancilla, so the length
strictly decreases; the initial length is always enough fuel).  A key of
length more than 2 has at least three elements, so the loop runs exactly on
the three-cons pattern. -/
def reduceLoop (lam : ℚ) : ℕ → RedState → Key → RedState × Key
  | 0, st, k => (st, k)
  | _ + 1, st, [] => (st, [])
  | _ + 1, st, [x] => (st, [x])
  | _ + 1, st, [x, y] => (st, [x, y])
  | fuel + 1, st, x0 :: x1 :: x2 :: rest =>
      let k := x0 :: x1 :: x2 :: rest
      let c := reduceChoose st x0 x1 k
      let Q := addConstraint st.Q c.1 c.2.1 c.2.2.1 lam
      let k' := sortKey
        ((k.filter (fun i => decide (¬(i = c.1 ∨ i = c.2.1)))) ++ [c.2.2.1])
      reduceLoop lam fuel ⟨Q, c.2.2.2.1, c.2.2.2.2⟩ k'

/-- Handle one source term of `to_qubo`.  The mapped key is sorted; if it is
a registered reduction pair the source executes `Q[reductions[key]] += v`
with the bare integer ancilla label as key, and the bounded container
rejects a non-tuple key (InvalidKey, modelled from the spec), so the call
fails (`none`).  Otherwise the key is reduced until its length is at most 2
and `v` is added at the final key. -/
def pairLookup (reds : List ((ℕ × ℕ) × ℕ)) : Key → Option ℕ
  | [a, b] => lookupRed reds (a, b)
  | _ => none

def toQuboStep {L : Type} (m : L → ℕ) (lam : ℚ → ℚ) (st : RedState)
    (kv : List L × ℚ) : Option RedState :=
  let key := sortKey (kv.1.map m)
  match pairLookup st.reds key with
  | some _ => none
  | none =>
      let r := reduceLoop (lam kv.2) key.length st key
      some { r.1 with Q := addTermBin r.1.Q r.2 kv.2 }

/-- The term loop of `to_qubo`. -/
def toQuboAux {L : Type} (m : L → ℕ) (lam : ℚ → ℚ) :
    List (List L × ℚ) → RedState → Option RedState
  | [], st => some st
  | kv :: rest, st =>
      match toQuboStep m lam st kv with
      | none => none
      | some st' => toQuboAux m lam rest st'

/-- `PUBO.to_qubo(lam)`.  The PUBO is given by its stored items over labels
`L`, the label mapping `m` built by the `BO` base class (`self._mapping`)
and `n = self.num_binary_variables`; the ancilla counter starts at `n` and
the registry starts empty. -/
def toQubo {L : Type} (m : L → ℕ) (n : ℕ) (lam : ℚ → ℚ)
    (items : List (List L × ℚ)) : Option RedState :=
  toQuboAux m lam items ⟨[], [], n⟩

/-- `PUBO.default_lam`: `1 + abs(v)`. -/
def default_lam (v : ℚ) : ℚ := 1 + |v|

/-- `PUBO.convert_solution(solution)`: map each index in `[0, n)` through
the reverse label mapping `self._reverse_mapping`, recording 1 exactly when
the solution value equals 1 and 0 otherwise; indices at and above `n` (the
ancillas) are never read. -/
def convert_solution {L : Type} (revm : ℕ → L) (n : ℕ) (sol : ℕ → ℚ) :
    List (L × ℕ) :=
  (List.range n).map (fun i => (revm i, if sol i = 1 then 1 else 0))

/-- Value of a label-keyed PUBO at a label assignment. -/
def evalL {L : Type} (items : List (List L × ℚ)) (b : L → ℚ) : ℚ :=
  (items.map (fun kv => kv.2 * (kv.1.map b).prod)).sum


/-! ## Registry and loop lemmas -/

theorem lookupRed_some_mem {reds : List ((ℕ × ℕ) × ℕ)} {p : ℕ × ℕ} {z : ℕ}
    (h : lookupRed reds p = some z) : (p, z) ∈ reds := by
  rw [lookupRed] at h
  rcases he : reds.find? (fun e => decide (e.1 = p)) with _ | e
  · rw [he] at h; cases h
  · rw [he] at h
    have hz : e.2 = z := Option.some.inj h
    have hmem := List.mem_of_find?_eq_some he
    have hpred := List.find?_some he
    rw [decide_eq_true_iff] at hpred
    have : e = (p, z) := by
      obtain ⟨e1, e2⟩ := e
      simp only at hpred hz
      rw [hpred, hz]
    rw [← this]
    exact hmem

theorem lookupRed_none_not_mem {reds : List ((ℕ × ℕ) × ℕ)} {p : ℕ × ℕ}
    (h : lookupRed reds p = none) : ∀ z, (p, z) ∉ reds := by
  intro z hz
  rw [lookupRed] at h
  rcases he : reds.find? (fun e => decide (e.1 = p)) with _ | e
  · have := List.find?_eq_none.1 he (p, z) hz
    simp at this
  · rw [he] at h; cases h

theorem findPairAux_some {reds : List ((ℕ × ℕ) × ℕ)} {x : ℕ} :
    ∀ {l : Key} {x' y z : ℕ},
      findPairAux reds x l = some ((x', y), z) →
      x' = x ∧ y ∈ l ∧ ((x', y), z) ∈ reds := by
  intro l
  induction l with
  | nil => intro x' y z h; cases h
  | cons b t ih =>
      intro x' y z h
      rw [findPairAux] at h
      rcases hl : lookupRed reds (x, b) with _ | z0
      · rw [hl] at h
        obtain ⟨h1, h2, h3⟩ := ih h
        exact ⟨h1, List.mem_cons_of_mem b h2, h3⟩
      · rw [hl] at h
        have h' := Option.some.inj h
        injection h' with ha hz
        injection ha with hx hy
        subst hx
        subst hy
        subst hz
        exact ⟨rfl, List.mem_cons_self _ _, lookupRed_some_mem hl⟩

theorem findPair_some {reds : List ((ℕ × ℕ) × ℕ)} :
    ∀ {k : Key} {x y z : ℕ},
      findPair reds k = some ((x, y), z) →
      x ∈ k ∧ y ∈ k ∧ ((x, y), z) ∈ reds := by
  intro k
  induction k with
  | nil => intro x y z h; cases h
  | cons b t ih =>
      intro x y z h
      rw [findPair] at h
      rcases ha : findPairAux reds b t with _ | r
      · rw [ha] at h
        obtain ⟨h1, h2, h3⟩ := ih h
        exact ⟨List.mem_cons_of_mem b h1, List.mem_cons_of_mem b h2, h3⟩
      · rw [ha] at h
        have hr := Option.some.inj h
        subst hr
        obtain ⟨h1, h2, h3⟩ := findPairAux_some ha
        subst h1
        exact ⟨List.mem_cons_self _ _, List.mem_cons_of_mem _ h2, h3⟩

theorem findPair_none_head {reds : List ((ℕ × ℕ) × ℕ)} {x0 x1 : ℕ}
    {rest : Key} (h : findPair reds (x0 :: x1 :: rest) = none) :
    lookupRed reds (x0, x1) = none := by
  rw [findPair] at h
  rcases ha : findPairAux reds x0 (x1 :: rest) with _ | r
  · rw [findPairAux] at ha
    rcases hl : lookupRed reds (x0, x1) with _ | z
    · rfl
    · rw [hl] at ha; cases ha
  · rw [ha] at h; cases h

theorem reduceLoop_short (lam : ℚ) (fuel : ℕ) (st : RedState) (k : Key)
    (h : k.length ≤ 2) : reduceLoop lam fuel st k = (st, k) := by
  cases fuel with
  | zero => rfl
  | succ f =>
      rcases k with _ | ⟨x, _ | ⟨y, _ | ⟨w, rest⟩⟩⟩
      · rfl
      · rfl
      · rfl
      · simp at h

/-- One unfolding of the loop on a key of length above 2. -/
theorem reduceLoop_cons3 (lam : ℚ) (fuel : ℕ) (st : RedState)
    (x0 x1 x2 : ℕ) (rest : Key) :
    reduceLoop lam (fuel + 1) st (x0 :: x1 :: x2 :: rest)
      = (let k := x0 :: x1 :: x2 :: rest
         let c := reduceChoose st x0 x1 k
         let Q := addConstraint st.Q c.1 c.2.1 c.2.2.1 lam
         let k' := sortKey
           ((k.filter (fun i => decide (¬(i = c.1 ∨ i = c.2.1)))) ++ [c.2.2.1])
         reduceLoop lam fuel ⟨Q, c.2.2.2.1, c.2.2.2.2⟩ k') := rfl

theorem reduceLoop_reds_append (lam : ℚ) :
    ∀ (fuel : ℕ) (st : RedState) (k : Key),
      ∃ ext, (reduceLoop lam fuel st k).1.reds = st.reds ++ ext := by
  intro fuel
  induction fuel with
  | zero => intro st k; exact ⟨[], (List.append_nil _).symm⟩
  | succ f ih =>
      intro st k
      rcases k with _ | ⟨x0, _ | ⟨x1, _ | ⟨x2, rest⟩⟩⟩
      · exact ⟨[], (List.append_nil _).symm⟩
      · exact ⟨[], (List.append_nil _).symm⟩
      · exact ⟨[], (List.append_nil _).symm⟩
      · rw [reduceLoop_cons3]
        rcases hf : findPair st.reds (x0 :: x1 :: x2 :: rest) with _ | r
        · simp only [reduceChoose, hf]
          obtain ⟨ext, hext⟩ := ih _ _
          refine ⟨((x0, x1), st.anc) :: ext, ?_⟩
          rw [hext]
          simp
        · obtain ⟨⟨x, y⟩, z⟩ := r
          simp only [reduceChoose, hf]
          exact ih _ _

theorem reduceLoop_reds_mono (lam : ℚ) (fuel : ℕ) (st : RedState) (k : Key) :
    ∀ e ∈ st.reds, e ∈ (reduceLoop lam fuel st k).1.reds := by
  intro e he
  obtain ⟨ext, hext⟩ := reduceLoop_reds_append lam fuel st k
  rw [hext]
  exact List.mem_append_left ext he


/-! ## Evaluation preservation through the reduction loop -/

theorem bool_mul_eq_one {p q : ℚ} (hp : p = 0 ∨ p = 1) (hq : q = 0 ∨ q = 1)
    (h : p * q = 1) : p = 1 ∧ q = 1 := by
  rcases hp with hp | hp <;> rcases hq with hq | hq
  · rw [hp, hq] at h; norm_num at h
  · rw [hp, hq] at h; norm_num at h
  · rw [hp, hq] at h; norm_num at h
  · exact ⟨hp, hq⟩

/-- Under a boolean assignment satisfying `a z = a x * a y`, the penalty
block contributes zero to the evaluation. -/
theorem eval_addConstraint (Q : Poly) (x y z : ℕ) (lam : ℚ) (a : ℕ → ℚ)
    (ha : BoolAssign a) (hz : a z = a x * a y) :
    eval (addConstraint Q x y z lam) a = eval Q a := by
  rw [addConstraint]
  simp only [addTermBin]
  rw [foldl_additive (μ := fun P => eval P a)
      (g := fun kv => kv.2 * keyVal a (squashBin kv.1))
      (fun L kv => eval_addTermWith squashBin L kv.1 kv.2 a)
      (constraint_xy_eq_z x y z lam) Q]
  rw [constraint_xy_eq_z]
  simp only [List.map_cons, List.map_nil, List.sum_cons, List.sum_nil]
  rw [keyVal_squashBin ha, keyVal_squashBin ha, keyVal_squashBin ha,
    keyVal_squashBin ha]
  simp only [keyVal_cons, keyVal_nil, hz]
  rcases ha x with hx | hx <;> rcases ha y with hy | hy <;>
    rw [hx, hy] <;> ring

/-- Replacing the paired indices `x`, `y` of `k` by an ancilla `z` carrying
their product preserves the monomial value under a boolean assignment. -/
theorem keyVal_reduceKey {a : ℕ → ℚ} (ha : BoolAssign a) {k : Key}
    {x y z : ℕ} (hx : x ∈ k) (hy : y ∈ k) (hz : a z = a x * a y) :
    keyVal a
        (sortKey ((k.filter (fun i => decide (¬(i = x ∨ i = y)))) ++ [z]))
      = keyVal a k := by
  have hmem : ∀ e : ℕ,
      e ∈ sortKey ((k.filter (fun i => decide (¬(i = x ∨ i = y)))) ++ [z])
        ↔ e ∈ k.filter (fun i => decide (¬(i = x ∨ i = y))) ∨ e = z := by
    intro e
    rw [mem_sortKey, List.mem_append, List.mem_singleton]
  have hiff :
      (∀ e ∈ sortKey ((k.filter (fun i => decide (¬(i = x ∨ i = y)))) ++ [z]),
        a e = 1) ↔ (∀ e ∈ k, a e = 1) := by
    constructor
    · intro hS
      have haz : a z = 1 := hS z ((hmem z).2 (Or.inr rfl))
      rw [hz] at haz
      obtain ⟨hax, hay⟩ := bool_mul_eq_one (ha x) (ha y) haz
      intro e he
      by_cases hex : e = x
      · rw [hex]; exact hax
      · by_cases hey : e = y
        · rw [hey]; exact hay
        · refine hS e ((hmem e).2 (Or.inl ?_))
          rw [List.mem_filter]
          exact ⟨he, by simp [hex, hey]⟩
    · intro hK e he
      rcases (hmem e).1 he with hef | rfl
      · exact hK e (List.mem_of_mem_filter hef)
      · rw [hz, hK x hx, hK y hy, one_mul]
  rcases keyVal_zero_or_one ha k with h1 | h1 <;>
    rcases keyVal_zero_or_one ha
      (sortKey ((k.filter (fun i => decide (¬(i = x ∨ i = y)))) ++ [z]))
      with h2 | h2
  · rw [h1, h2]
  · exfalso
    have := (keyVal_eq_one_iff ha _).2
      (hiff.1 ((keyVal_eq_one_iff ha _).1 h2))
    rw [h1] at this
    norm_num at this
  · exfalso
    have := (keyVal_eq_one_iff ha _).2
      (hiff.2 ((keyVal_eq_one_iff ha _).1 h1))
    rw [h2] at this
    norm_num at this
  · rw [h1, h2]

/-- Evaluation soundness of the reduction loop: provided every registry
entry of the final state belongs to a set `R` of constraints satisfied by
the boolean assignment `a`, the loop neither changes the value of the
accumulated polynomial nor the value of the processed monomial. -/
theorem reduceLoop_eval {lam : ℚ} {a : ℕ → ℚ} (ha : BoolAssign a)
    {R : List ((ℕ × ℕ) × ℕ)} (hC : ∀ e ∈ R, a e.2 = a e.1.1 * a e.1.2) :
    ∀ (fuel : ℕ) (st : RedState) (k : Key),
      (∀ e ∈ (reduceLoop lam fuel st k).1.reds, e ∈ R) →
      eval (reduceLoop lam fuel st k).1.Q a = eval st.Q a ∧
        keyVal a (reduceLoop lam fuel st k).2 = keyVal a k := by
  intro fuel
  induction fuel with
  | zero => intro st k _; exact ⟨rfl, rfl⟩
  | succ f ih =>
      intro st k hsub
      rcases k with _ | ⟨x0, _ | ⟨x1, _ | ⟨x2, rest⟩⟩⟩
      · exact ⟨rfl, rfl⟩
      · exact ⟨rfl, rfl⟩
      · exact ⟨rfl, rfl⟩
      · rw [reduceLoop_cons3] at hsub ⊢
        rcases hf : findPair st.reds (x0 :: x1 :: x2 :: rest) with _ | r
        · simp only [reduceChoose, hf] at hsub ⊢
          have he0 : ((x0, x1), st.anc)
              ∈ (reduceLoop lam f
                  ⟨addConstraint st.Q x0 x1 st.anc lam,
                    st.reds ++ [((x0, x1), st.anc)], st.anc + 1⟩
                  (sortKey
                    (((x0 :: x1 :: x2 :: rest).filter
                      (fun i => decide (¬(i = x0 ∨ i = x1)))) ++
                      [st.anc]))).1.reds := by
            apply reduceLoop_reds_mono
            simp
          have hz : a st.anc = a x0 * a x1 := hC _ (hsub _ he0)
          obtain ⟨hQ, hK⟩ := ih _ _ hsub
          constructor
          · rw [hQ, eval_addConstraint st.Q x0 x1 st.anc lam a ha hz]
          · rw [hK,
              keyVal_reduceKey ha (List.mem_cons_self _ _)
                (List.mem_cons_of_mem _ (List.mem_cons_self _ _)) hz]
        · obtain ⟨⟨x, y⟩, z⟩ := r
          obtain ⟨hxk, hyk, hmem⟩ := findPair_some hf
          simp only [reduceChoose, hf] at hsub ⊢
          have hz : a z = a x * a y :=
            hC _ (hsub _ (reduceLoop_reds_mono _ _ _ _ _ hmem))
          obtain ⟨hQ, hK⟩ := ih _ _ hsub
          constructor
          · rw [hQ, eval_addConstraint st.Q x y z lam a ha hz]
          · rw [hK, keyVal_reduceKey ha hxk hyk hz]


/-! ## `to_qubo` soundness (C1) and registry invariants (C8) -/

theorem toQuboStep_some {L : Type} (m : L → ℕ) (lam : ℚ → ℚ)
    (st st' : RedState) (kv : List L × ℚ)
    (h : toQuboStep m lam st kv = some st') :
    st' = ⟨addTermBin
            (reduceLoop (lam kv.2) (sortKey (kv.1.map m)).length st
              (sortKey (kv.1.map m))).1.Q
            (reduceLoop (lam kv.2) (sortKey (kv.1.map m)).length st
              (sortKey (kv.1.map m))).2 kv.2,
          (reduceLoop (lam kv.2) (sortKey (kv.1.map m)).length st
              (sortKey (kv.1.map m))).1.reds,
          (reduceLoop (lam kv.2) (sortKey (kv.1.map m)).length st
              (sortKey (kv.1.map m))).1.anc⟩ := by
  rcases hsc : pairLookup st.reds (sortKey (kv.1.map m)) with _ | z
  · simp only [toQuboStep, hsc] at h
    exact (Option.some.inj h).symm
  · simp only [toQuboStep, hsc] at h
    exact Option.noConfusion h

theorem toQuboStep_reds_mono {L : Type} (m : L → ℕ) (lam : ℚ → ℚ)
    (st st' : RedState) (kv : List L × ℚ)
    (h : toQuboStep m lam st kv = some st') :
    ∀ e ∈ st.reds, e ∈ st'.reds := by
  rw [toQuboStep_some m lam st st' kv h]
  intro e he
  exact reduceLoop_reds_mono _ _ _ _ e he

theorem toQuboAux_reds_mono {L : Type} (m : L → ℕ) (lam : ℚ → ℚ) :
    ∀ (items : List (List L × ℚ)) (st F : RedState),
      toQuboAux m lam items st = some F → ∀ e ∈ st.reds, e ∈ F.reds := by
  intro items
  induction items with
  | nil =>
      intro st F h e he
      rw [toQuboAux] at h
      rw [← Option.some.inj h]
      exact he
  | cons kv rest ih =>
      intro st F h e he
      rw [toQuboAux] at h
      rcases hs : toQuboStep m lam st kv with _ | st'
      · rw [hs] at h; cases h
      · simp only [hs] at h
        exact ih st' F h e (toQuboStep_reds_mono m lam st st' kv hs e he)

theorem toQuboAux_eval {L : Type} (m : L → ℕ) (lam : ℚ → ℚ) (a : ℕ → ℚ)
    (ha : BoolAssign a) :
    ∀ (items : List (List L × ℚ)) (st F : RedState),
      toQuboAux m lam items st = some F →
      (∀ e ∈ F.reds, a e.2 = a e.1.1 * a e.1.2) →
      eval F.Q a = eval st.Q a + evalL items (fun l => a (m l)) := by
  intro items
  induction items with
  | nil =>
      intro st F h _
      rw [toQuboAux] at h
      rw [← Option.some.inj h, evalL]
      simp
  | cons kv rest ih =>
      intro st F h hC
      rw [toQuboAux] at h
      rcases hs : toQuboStep m lam st kv with _ | st'
      · rw [hs] at h; cases h
      · simp only [hs] at h
        have hsub : ∀ e ∈ st'.reds, e ∈ F.reds :=
          toQuboAux_reds_mono m lam rest st' F h
        have hCsub : ∀ e ∈ (reduceLoop (lam kv.2)
            (sortKey (kv.1.map m)).length st (sortKey (kv.1.map m))).1.reds,
            e ∈ F.reds := by
          intro e he
          apply hsub
          rw [toQuboStep_some m lam st st' kv hs]
          exact he
        obtain ⟨hQ, hK⟩ := reduceLoop_eval ha
          (fun e he => hC e he)
          (sortKey (kv.1.map m)).length st (sortKey (kv.1.map m)) hCsub
        rw [ih st' F h hC]
        rw [toQuboStep_some m lam st st' kv hs]
        simp only [addTermBin]
        rw [eval_addTermWith, keyVal_squashBin ha, hQ, hK]
        rw [show keyVal a (sortKey (kv.1.map m)) = keyVal a (kv.1.map m) from
          keyVal_perm a (sortKey_perm _)]
        simp only [evalL, List.map_cons, List.sum_cons, keyVal,
          List.map_map, Function.comp_def]
        ring

/-- Claim C1: for every PUBO (items over arbitrary labels with label mapping
`m` into `[0, n)`) and positive weighting `lam`, if `to_qubo` returns a
polynomial, then at every boolean assignment over original and ancilla
indices satisfying `a z = a x * a y` for every registry entry `((x, y), z)`,
the returned polynomial evaluates to the value of the original PUBO at the
restriction of the assignment to the original indices (read through the
label mapping). -/
theorem to_qubo_sound {L : Type} (items : List (List L × ℚ)) (m : L → ℕ)
    (n : ℕ) (lam : ℚ → ℚ) (F : RedState) (a : ℕ → ℚ)
    (hlam : ∀ v, 0 < lam v)
    (hok : toQubo m n lam items = some F)
    (ha : BoolAssign a)
    (hC : ∀ e ∈ F.reds, a e.2 = a e.1.1 * a e.1.2) :
    eval F.Q a = evalL items (fun l => a (m l)) := by
  have := toQuboAux_eval m lam a ha items ⟨[], [], n⟩ F hok hC
  rw [this]
  rw [show eval (⟨[], [], n⟩ : RedState).Q a = 0 from rfl, zero_add]


/-! ## Registry invariants (C8) -/

theorem range'_snoc :
    ∀ (n s : ℕ), List.range' s (n + 1) = List.range' s n ++ [s + n] := by
  intro n
  induction n with
  | zero => intro s; simp [List.range']
  | succ n ih =>
      intro s
      have h1 : List.range' s (n + 1 + 1) = s :: List.range' (s + 1) (n + 1) := rfl
      have h2 : List.range' s (n + 1) = s :: List.range' (s + 1) n := rfl
      rw [h1, ih (s + 1), h2]
      have h3 : s + 1 + n = s + (n + 1) := by omega
      rw [List.cons_append, h3]

/-- Registry well-formedness for a call with `n` original variables: no pair
registered twice, every pair ordered (smaller index first, as pairs are
scanned from sorted keys), ancilla values exactly `n, n + 1, ...` in
registration order, and the counter one past the last minted ancilla. -/
def RegOk (n : ℕ) (st : RedState) : Prop :=
  (st.reds.map Prod.fst).Nodup ∧
    (∀ e ∈ st.reds, e.1.1 ≤ e.1.2) ∧
    st.reds.map Prod.snd = List.range' n st.reds.length ∧
    st.anc = n + st.reds.length

theorem reduceLoop_regOk (lam : ℚ) (n : ℕ) :
    ∀ (fuel : ℕ) (st : RedState) (k : Key),
      List.Sorted (· ≤ ·) k → RegOk n st →
      RegOk n (reduceLoop lam fuel st k).1 := by
  intro fuel
  induction fuel with
  | zero => intro st k _ h; exact h
  | succ f ih =>
      intro st k hk h
      rcases k with _ | ⟨x0, _ | ⟨x1, _ | ⟨x2, rest⟩⟩⟩
      · exact h
      · exact h
      · exact h
      · rw [reduceLoop_cons3]
        rcases hf : findPair st.reds (x0 :: x1 :: x2 :: rest) with _ | r
        · simp only [reduceChoose, hf]
          apply ih _ _ (sortKey_sorted _)
          obtain ⟨hnd, hle, hsnd, hanc⟩ := h
          have hx01 : x0 ≤ x1 :=
            (List.pairwise_cons.1 hk).1 x1 (List.mem_cons_self _ _)
          have hlk := findPair_none_head hf
          have hnotmem : (x0, x1) ∉ st.reds.map Prod.fst := by
            intro hmem
            obtain ⟨e, he, hfst⟩ := List.mem_map.1 hmem
            have hmem2 : ((x0, x1), e.2) ∈ st.reds := by
              rw [← hfst]
              exact he
            exact lookupRed_none_not_mem hlk e.2 hmem2
          refine ⟨?_, ?_, ?_, ?_⟩
          · rw [List.map_append]
            refine List.Nodup.append hnd (List.nodup_singleton _) ?_
            intro p hp hp2
            rw [List.map_singleton, List.mem_singleton] at hp2
            rw [hp2] at hp
            exact hnotmem hp
          · intro e he
            rcases List.mem_append.1 he with he | he
            · exact hle e he
            · rw [List.mem_singleton] at he
              rw [he]
              exact hx01
          · rw [List.map_append, hsnd, List.map_singleton,
              List.length_append]
            simp only [List.length_singleton]
            rw [range'_snoc, hanc]
          · rw [List.length_append]
            simp only [List.length_singleton]
            rw [hanc]
            omega
        · obtain ⟨⟨x, y⟩, z⟩ := r
          simp only [reduceChoose, hf]
          exact ih _ _ (sortKey_sorted _) h

theorem toQuboStep_regOk {L : Type} (m : L → ℕ) (lam : ℚ → ℚ) (n : ℕ)
    (st st' : RedState) (kv : List L × ℚ)
    (h : toQuboStep m lam st kv = some st') (hr : RegOk n st) :
    RegOk n st' := by
  rw [toQuboStep_some m lam st st' kv h]
  exact reduceLoop_regOk (lam kv.2) n (sortKey (kv.1.map m)).length st
    (sortKey (kv.1.map m)) (sortKey_sorted _) hr

theorem toQuboAux_regOk {L : Type} (m : L → ℕ) (lam : ℚ → ℚ) (n : ℕ) :
    ∀ (items : List (List L × ℚ)) (st F : RedState),
      toQuboAux m lam items st = some F → RegOk n st → RegOk n F := by
  intro items
  induction items with
  | nil =>
      intro st F h hr
      rw [toQuboAux] at h
      rw [← Option.some.inj h]
      exact hr
  | cons kv rest ih =>
      intro st F h hr
      rw [toQuboAux] at h
      rcases hs : toQuboStep m lam st kv with _ | st'
      · rw [hs] at h; cases h
      · simp only [hs] at h
        exact ih st' F h (toQuboStep_regOk m lam n st st' kv hs hr)

/-- Claim C8: within a single `to_qubo` call the reductions registry never
binds a pair of indices to two distinct ancillas: the final registry has
pairwise distinct pairs (registrations only append, so a pair registered
once is looked up, never re-minted), every registered pair is ordered
(smaller index first, so ordered lookups on sorted keys realise unordered
pairs), and the minted ancilla values are exactly `n, n + 1, ...` in
registration order, with the counter advanced once per mint. -/
theorem to_qubo_registry {L : Type} (items : List (List L × ℚ)) (m : L → ℕ)
    (n : ℕ) (lam : ℚ → ℚ) (F : RedState)
    (hok : toQubo m n lam items = some F) :
    (F.reds.map Prod.fst).Nodup ∧ (∀ e ∈ F.reds, e.1.1 ≤ e.1.2) ∧
      F.reds.map Prod.snd = List.range' n F.reds.length ∧
      F.anc = n + F.reds.length := by
  have h0 : RegOk n ⟨[], [], n⟩ := by
    refine ⟨List.nodup_nil, ?_, rfl, rfl⟩
    intro e he
    cases he
  exact toQuboAux_regOk m lam n items _ F hok h0


/-! ## Low-degree terms and the reductions shortcut (C2), solution
translation (C9) -/

/-- Claim C2 (amended): for a source term whose canonical mapped key `K` has
length at most 2, if `K` is not a registered reduction pair then `v` is
added directly at `K` itself and nothing else changes; if `K` is registered
(necessarily of length 2), the source executes `Q[reductions[K]] += v` with
the bare integer ancilla label as key, which the bounded container rejects
(InvalidKey): the term is not added at `K` and the call raises instead. -/
theorem toQuboStep_low_degree {L : Type} (m : L → ℕ) (lam : ℚ → ℚ)
    (st : RedState) (kp : List L) (v : ℚ)
    (hlen : (sortKey (kp.map m)).length ≤ 2) :
    (pairLookup st.reds (sortKey (kp.map m)) = none →
      toQuboStep m lam st (kp, v)
        = some ⟨addTermBin st.Q (sortKey (kp.map m)) v, st.reds, st.anc⟩) ∧
      (∀ z, pairLookup st.reds (sortKey (kp.map m)) = some z →
        toQuboStep m lam st (kp, v) = none) := by
  constructor
  · intro hnone
    simp only [toQuboStep, hnone]
    rw [reduceLoop_short _ _ _ _ hlen]
  · intro z hsome
    simp only [toQuboStep, hsome]

/-- Claim C2, counterexample: on the PUBO `{(0,1,2): 1, (0,1): 1}` (labels
already integers, `n = 3`), the first term registers the pair `(0, 1)`, and
processing the second term — whose canonical key `(0, 1)` has length 2 —
raises instead of adding its coefficient at `(0, 1)`. -/
theorem toQubo_shortcut_raises :
    toQubo (fun i : ℕ => i) 3 default_lam [([0, 1, 2], (1 : ℚ)), ([0, 1], 1)]
        = none ∧
      sortKey (([0, 1] : List ℕ).map (fun i : ℕ => i)) = [0, 1] ∧
      (sortKey (([0, 1] : List ℕ).map (fun i : ℕ => i))).length ≤ 2 := by
  refine ⟨?_, rfl, by decide⟩
  rfl

/-- Claim C9: `convert_solution` returns exactly the original labels (each
index in `[0, n)` resolved through the reverse mapping), assigns to each
label 1 exactly when its index's value equals 1 and 0 otherwise (so spin
value -1 becomes 0), and reads no index at or above `n`: two solutions
agreeing on `[0, n)` convert identically, with no consistency check of any
ancilla against its source pair. -/
theorem convert_solution_spec {L : Type} (revm : ℕ → L) (n : ℕ)
    (sol sol' : ℕ → ℚ) (hagree : ∀ i < n, sol i = sol' i) :
    (convert_solution revm n sol).map Prod.fst = (List.range n).map revm ∧
      (∀ i < n, (revm i, if sol i = 1 then 1 else 0)
        ∈ convert_solution revm n sol) ∧
      convert_solution revm n sol = convert_solution revm n sol' := by
  refine ⟨?_, ?_, ?_⟩
  · rw [convert_solution, List.map_map]
    rfl
  · intro i hi
    rw [convert_solution]
    exact List.mem_map.2 ⟨i, List.mem_range.2 hi, rfl⟩
  · rw [convert_solution, convert_solution]
    apply List.map_congr_left
    intro i hi
    rw [hagree i (List.mem_range.1 hi)]


/-! ## The concrete reduction example of the spec (C3) and concrete
instances used as witnesses -/

/-- The labels of the spec's concrete example: the string `'a'` and the
integers 0 and 1. -/
inductive PLabel where
  | strA : PLabel
  | int0 : PLabel
  | int1 : PLabel
deriving DecidableEq

/-- The concrete PUBO `{('a',): 5, ('a', 0, 1): -2, (): -1.5}` in stored
item order. -/
def examplePUBO : List (List PLabel × ℚ) :=
  [([PLabel.strA], 5), ([PLabel.strA, PLabel.int0, PLabel.int1], -2),
    ([], -3/2)]

/-- The label mapping `'a' ↦ 0, 0 ↦ 1, 1 ↦ 2`. -/
def exampleMap : PLabel → ℕ
  | PLabel.strA => 0
  | PLabel.int0 => 1
  | PLabel.int1 => 2

/-- The reverse label mapping on the original indices `[0, 3)`. -/
def exampleRev : ℕ → PLabel
  | 0 => PLabel.strA
  | 1 => PLabel.int0
  | _ => PLabel.int1

/-- The state returned by `to_qubo` on the example (default weighting):
the quadratic polynomial, one registered reduction `(0, 1) ↦ 3`, and the
ancilla counter at 4. -/
def exampleState : RedState :=
  ⟨[([], -3/2), ([2, 3], -2), ([1, 3], -6), ([0, 3], -6), ([0, 1], 3),
      ([3], 9), ([0], 5)],
    [((0, 1), 3)], 4⟩

/-- The all-zeros assignment. -/
def zeroAssign : ℕ → ℚ := fun _ => 0

/-- The all-ones assignment. -/
def oneAssign : ℕ → ℚ := fun _ => 1

theorem boolAssign_zero : BoolAssign zeroAssign := fun _ => Or.inl rfl

theorem boolAssign_one : BoolAssign oneAssign := fun _ => Or.inr rfl

theorem toQubo_example :
    toQubo exampleMap 3 default_lam examplePUBO = some exampleState := by
  norm_num [toQubo, toQuboAux, toQuboStep, pairLookup, lookupRed, reduceLoop,
    reduceChoose, findPair, findPairAux, addConstraint, constraint_xy_eq_z,
    addTermBin, addTermWith, setCoeff, removeKey, coeff, sortKey, squashBin,
    default_lam, examplePUBO, exampleMap, exampleState, List.insertionSort,
    List.orderedInsert, List.find?, List.filter_cons, List.filter_nil,
    List.foldl, List.dedup, abs, decide_eq_true_eq, List.cons_ne_nil,
    List.cons.injEq, ne_eq]

theorem eval_exampleQ (b : ℕ → ℚ) :
    eval exampleState.Q b
      = -3/2 - 2 * (b 2 * b 3) - 6 * (b 1 * b 3) - 6 * (b 0 * b 3)
        + 3 * (b 0 * b 1) + 9 * b 3 + 5 * b 0 := by
  simp [exampleState, eval, keyVal]
  ring

theorem eval_exampleQ_zero : eval exampleState.Q zeroAssign = -3/2 := by
  rw [eval_exampleQ]
  simp [zeroAssign]

/-- The all-zeros assignment minimizes the reduced quadratic. -/
theorem zeroAssign_minimizes :
    ∀ b : ℕ → ℚ, BoolAssign b →
      eval exampleState.Q zeroAssign ≤ eval exampleState.Q b := by
  intro b hb
  rw [eval_exampleQ_zero, eval_exampleQ]
  rcases hb 0 with h0 | h0 <;> rcases hb 1 with h1 | h1 <;>
    rcases hb 2 with h2 | h2 <;> rcases hb 3 with h3 | h3 <;>
    rw [h0, h1, h2, h3] <;> norm_num

/-- Any boolean minimizer of the reduced quadratic assigns 0 to index 0
(the index of label `'a'`). -/
theorem minimizer_b0 (b : ℕ → ℚ) (hb : BoolAssign b)
    (hmin : ∀ c : ℕ → ℚ, BoolAssign c →
      eval exampleState.Q b ≤ eval exampleState.Q c) :
    b 0 = 0 := by
  have hle := hmin zeroAssign boolAssign_zero
  rw [eval_exampleQ_zero, eval_exampleQ] at hle
  rcases hb 0 with h0 | h0
  · exact h0
  · exfalso
    rcases hb 1 with h1 | h1 <;> rcases hb 2 with h2 | h2 <;>
      rcases hb 3 with h3 | h3 <;> rw [h0, h1, h2, h3] at hle <;>
      norm_num at hle

/-- Claim C3, counterexample: with the default weighting, the all-zeros
assignment minimizes the reduced quadratic of the spec's concrete example,
yet `convert_solution` returns `{'a': 0, 0: 0, 1: 0}`, not the asserted
`{'a': 1, 0: 1, 1: 1}` (the original objective attains its minimum -1.5 at
`'a' = 0`; the spec's claimed point has value 1.5). -/
theorem example_reduction_counterexample :
    toQubo exampleMap 3 default_lam examplePUBO = some exampleState ∧
      exampleState.reds.length = 1 ∧
      BoolAssign zeroAssign ∧
      (∀ b : ℕ → ℚ, BoolAssign b →
        eval exampleState.Q zeroAssign ≤ eval exampleState.Q b) ∧
      convert_solution exampleRev 3 zeroAssign
        ≠ [(PLabel.strA, 1), (PLabel.int0, 1), (PLabel.int1, 1)] := by
  refine ⟨toQubo_example, rfl, boolAssign_zero, zeroAssign_minimizes, ?_⟩
  decide

/-- Claim C3 (amended): on the concrete PUBO
`{('a',): 5, ('a', 0, 1): -2, (): -1.5}` with mapping `'a'↦0, 0↦1, 1↦2`,
`to_qubo()` (default weighting) introduces exactly one ancilla (index 3,
for the sole degree-3 term), and for every boolean assignment minimizing
the resulting quadratic, `convert_solution` returns `'a' ↦ 0` together with
the assignment's values at indices 1 and 2 — the ancilla's value ignored —
and never the spec's asserted `{'a': 1, 0: 1, 1: 1}` (the original P is
minimized at `'a' = 0`, not at the spec's claimed point). -/
theorem example_reduction_amended (b : ℕ → ℚ) (hb : BoolAssign b)
    (hmin : ∀ c : ℕ → ℚ, BoolAssign c →
      eval exampleState.Q b ≤ eval exampleState.Q c) :
    toQubo exampleMap 3 default_lam examplePUBO = some exampleState ∧
      exampleState.reds.length = 1 ∧ exampleState.anc = 4 ∧
      convert_solution exampleRev 3 b
        = [(PLabel.strA, 0), (PLabel.int0, if b 1 = 1 then 1 else 0),
            (PLabel.int1, if b 2 = 1 then 1 else 0)] := by
  refine ⟨toQubo_example, rfl, rfl, ?_⟩
  have hb0 : b 0 = 0 := minimizer_b0 b hb hmin
  rw [convert_solution, show List.range 3 = [0, 1, 2] from rfl]
  simp [exampleRev, hb0]

/-- Witness for the amended C3 at the concrete minimizing assignment. -/
theorem example_reduction_witness :
    BoolAssign zeroAssign ∧
      (∀ c : ℕ → ℚ, BoolAssign c →
        eval exampleState.Q zeroAssign ≤ eval exampleState.Q c) ∧
      (toQubo exampleMap 3 default_lam examplePUBO = some exampleState ∧
        exampleState.reds.length = 1 ∧ exampleState.anc = 4 ∧
        convert_solution exampleRev 3 zeroAssign
          = [(PLabel.strA, 0),
              (PLabel.int0, if zeroAssign 1 = 1 then 1 else 0),
              (PLabel.int1, if zeroAssign 2 = 1 then 1 else 0)]) :=
  ⟨boolAssign_zero, zeroAssign_minimizes,
    example_reduction_amended zeroAssign boolAssign_zero zeroAssign_minimizes⟩


/-! ## Concrete witness instances -/

/-- The spec's bounded-degree example `{(0,): 1, (0, 1): -1, (1,): 3}`. -/
def quboExample : Poly := [([0], 1), ([0, 1], -1), ([1], 3)]

/-- A degree-3 example for the general round trip. -/
def puboExample : Poly := [([0, 1, 2], 1), ([0], -1)]

/-- The binary assignment `{0: 1, 1: 0, ...}`. -/
def binAssign01 : ℕ → ℚ := fun i => if i = 0 then 1 else 0

/-- A solution agreeing with the all-ones solution below index 3 only. -/
def truncSol : ℕ → ℚ := fun i => if i < 3 then 1 else 0

theorem isQUBOMat_quboExample : IsQUBOMat quboExample := by
  constructor
  · decide
  · decide

theorem isPUBOMat_puboExample : IsPUBOMat puboExample := by
  constructor
  · decide
  · decide

theorem boolAssign_binAssign01 : BoolAssign binAssign01 := by
  intro i
  by_cases h : i = 0 <;> simp [binAssign01, h]

/-- Witness for C4 at `x = 0`, `y = 1`, `z = 2`, `lam = 1` and the boolean
assignment `(1, 0, 0)`. -/
theorem constraint_penalty_correct_witness :
    (0 : ℚ) < 1 ∧ (0 : ℕ) ≠ 1 ∧ (0 : ℕ) ≠ 2 ∧ (1 : ℕ) ≠ 2 ∧
      (binAssign01 0 = 0 ∨ binAssign01 0 = 1) ∧
      (binAssign01 1 = 0 ∨ binAssign01 1 = 1) ∧
      (binAssign01 2 = 0 ∨ binAssign01 2 = 1) ∧
      ((binAssign01 2 = binAssign01 0 * binAssign01 1 →
          eval (constraint_xy_eq_z 0 1 2 1) binAssign01 = 0) ∧
        (binAssign01 2 ≠ binAssign01 0 * binAssign01 1 →
          1 ≤ eval (constraint_xy_eq_z 0 1 2 1) binAssign01)) := by
  refine ⟨by norm_num, by decide, by decide, by decide,
    boolAssign_binAssign01 0, boolAssign_binAssign01 1,
    boolAssign_binAssign01 2, ?_⟩
  exact constraint_penalty_correct 0 1 2 1 binAssign01 (by norm_num)
    (by decide) (by decide) (by decide) (boolAssign_binAssign01 0)
    (boolAssign_binAssign01 1) (boolAssign_binAssign01 2)

/-- Witness for C5 at the spec's concrete `QUBOMatrix`. -/
theorem ising_to_qubo_qubo_to_ising_witness :
    IsQUBOMat quboExample ∧
      (dictEq (ising_to_qubo (qubo_to_ising quboExample)) quboExample ∧
        ∀ key, coeff (ising_to_qubo (qubo_to_ising quboExample)) key
          = coeff quboExample key) :=
  ⟨isQUBOMat_quboExample,
    ising_to_qubo_qubo_to_ising quboExample isQUBOMat_quboExample⟩

/-- Witness for C6 at a degree-3 `PUBOMatrix`. -/
theorem hising_to_pubo_pubo_to_hising_witness :
    IsPUBOMat puboExample ∧
      (dictEq (hising_to_pubo (pubo_to_hising puboExample)) puboExample ∧
        ∀ key, coeff (hising_to_pubo (pubo_to_hising puboExample)) key
          = coeff puboExample key) :=
  ⟨isPUBOMat_puboExample,
    hising_to_pubo_pubo_to_hising puboExample isPUBOMat_puboExample⟩

theorem eval_quboExample_binAssign01 : eval quboExample binAssign01 = 1 := by
  norm_num [quboExample, eval, keyVal, binAssign01]

/-- Witness for C7: the spec's value-preservation instance, `P` at
`{0: 1, 1: 0}` and `qubo_to_ising P` at `{0: 1, 1: -1}` both give 1. -/
theorem qubo_to_ising_preserves_value_witness :
    IsQUBOMat quboExample ∧ BoolAssign binAssign01 ∧
      eval quboExample binAssign01 = 1 ∧
      eval (qubo_to_ising quboExample) (fun i => 2 * binAssign01 i - 1) = 1 := by
  refine ⟨isQUBOMat_quboExample, boolAssign_binAssign01,
    eval_quboExample_binAssign01, ?_⟩
  rw [qubo_to_ising_preserves_value quboExample binAssign01
    isQUBOMat_quboExample boolAssign_binAssign01]
  exact eval_quboExample_binAssign01

/-- Witness for C10 at the concrete `QUBOMatrix`. -/
theorem qubo_to_ising_eq_pubo_to_hising_witness :
    IsQUBOMat quboExample ∧
      (dictEq (qubo_to_ising quboExample) (pubo_to_hising quboExample) ∧
        ∀ key, coeff (qubo_to_ising quboExample) key
          = coeff (pubo_to_hising quboExample) key) :=
  ⟨isQUBOMat_quboExample,
    qubo_to_ising_eq_pubo_to_hising quboExample isQUBOMat_quboExample⟩

theorem default_lam_pos : ∀ v : ℚ, 0 < default_lam v := by
  intro v
  rw [default_lam]
  have := abs_nonneg v
  linarith

theorem exampleReds_constraints :
    ∀ e ∈ exampleState.reds, oneAssign e.2 = oneAssign e.1.1 * oneAssign e.1.2 := by
  intro e he
  rw [show exampleState.reds = [((0, 1), 3)] from rfl,
    List.mem_singleton] at he
  subst he
  norm_num [oneAssign]

/-- Witness for C1 at the spec's concrete PUBO, the default weighting, and
the all-ones assignment (which satisfies the single ancilla constraint). -/
theorem to_qubo_sound_witness :
    (∀ v : ℚ, 0 < default_lam v) ∧
      toQubo exampleMap 3 default_lam examplePUBO = some exampleState ∧
      BoolAssign oneAssign ∧
      (∀ e ∈ exampleState.reds,
        oneAssign e.2 = oneAssign e.1.1 * oneAssign e.1.2) ∧
      eval exampleState.Q oneAssign
        = evalL examplePUBO (fun l => oneAssign (exampleMap l)) :=
  ⟨default_lam_pos, toQubo_example, boolAssign_one, exampleReds_constraints,
    to_qubo_sound examplePUBO exampleMap 3 default_lam exampleState oneAssign
      default_lam_pos toQubo_example boolAssign_one exampleReds_constraints⟩

/-- Witness for the amended C2: a term with canonical key `(0, 1)` (length
2, not registered in the empty registry) is added exactly at its own key. -/
theorem toQuboStep_low_degree_witness :
    (sortKey (([0, 1] : List ℕ).map (fun i : ℕ => i))).length ≤ 2 ∧
      toQuboStep (fun i : ℕ => i) default_lam ⟨[], [], 3⟩ ([0, 1], 1)
        = some ⟨addTermBin [] (sortKey (([0, 1] : List ℕ).map (fun i : ℕ => i))) 1,
            [], 3⟩ := by
  have hlen : (sortKey (([0, 1] : List ℕ).map (fun i : ℕ => i))).length ≤ 2 := by
    decide
  exact ⟨hlen,
    (toQuboStep_low_degree (fun i : ℕ => i) default_lam ⟨[], [], 3⟩ [0, 1] 1
      hlen).1 rfl⟩

/-- Witness for C8 at the spec's concrete PUBO. -/
theorem to_qubo_registry_witness :
    toQubo exampleMap 3 default_lam examplePUBO = some exampleState ∧
      ((exampleState.reds.map Prod.fst).Nodup ∧
        (∀ e ∈ exampleState.reds, e.1.1 ≤ e.1.2) ∧
        exampleState.reds.map Prod.snd
          = List.range' 3 exampleState.reds.length ∧
        exampleState.anc = 3 + exampleState.reds.length) :=
  ⟨toQubo_example,
    to_qubo_registry examplePUBO exampleMap 3 default_lam exampleState
      toQubo_example⟩

/-- Witness for C9: two solutions agreeing on the original indices `[0, 3)`
but differing on the ancilla indices convert identically. -/
theorem convert_solution_spec_witness :
    (∀ i < 3, oneAssign i = truncSol i) ∧
      ((convert_solution exampleRev 3 oneAssign).map Prod.fst
          = (List.range 3).map exampleRev ∧
        (∀ i < 3, (exampleRev i, if oneAssign i = 1 then 1 else 0)
          ∈ convert_solution exampleRev 3 oneAssign) ∧
        convert_solution exampleRev 3 oneAssign
          = convert_solution exampleRev 3 truncSol) := by
  have hagree : ∀ i < 3, oneAssign i = truncSol i := by
    intro i hi
    simp [oneAssign, truncSol, hi]
  exact ⟨hagree,
    convert_solution_spec exampleRev 3 oneAssign truncSol hagree⟩

end Qubovert
